import Mathlib

/-!
Shallow embedding of the md365 synchronization engine
(`internal/sync/sync.go`, the filename helpers of `internal/auth/auth.go`,
and the Graph delta pager of `internal/graph`), together with proofs of
the specification claims about it.

Modelling conventions:
* a category directory is a `List FsFile` (name plus content); the real
  directory enumeration order (sorted names) is abstracted as the list
  order — no claim below depends on the enumeration order;
* file contents are modelled as the structured data the encoder writes
  (the YAML front matter plus body is a deterministic, injective image of
  the record, the account and the configured timezone), with a `corrupt`
  constructor for files whose front matter does not decode to a string id;
* OS-level write failures (`os.WriteFile` returning an error) are
  injected through a `failWrite` list of record ids whose content write
  fails; all other OS calls are modelled as succeeding;
* `time.Now()` and the timestamp formatting are passed in as `now`.
-/

namespace Md365

/-- Calendar event record, the fields of `graph.Event` that the sync
engine (`WriteEventFile`/`SyncCalendar`) reads. -/
structure Event where
  id : String
  subject : String
  startDateTime : String
  startTimeZone : String
  endDateTime : String
  endTimeZone : String
  isAllDay : Bool
  sensitivity : String
  lastModified : String
  body : String
deriving DecidableEq, Repr

/-- Contact record, the fields of `graph.Contact` the sync engine reads;
`removed` models `Contact.Removed != nil` (a delta tombstone). -/
structure Contact where
  id : String
  displayName : String
  givenName : String
  surname : String
  company : String
  lastModified : String
  removed : Bool
deriving DecidableEq, Repr

/-- Content of a local file. `eventFile`/`contactFile` stand for the exact
bytes `WriteEventFile`/`WriteContactFile` emit for the given account,
timezone and record (the emission is deterministic and injective in these
arguments). `corrupt` stands for any bytes whose front matter fails to
parse or lacks a string `id` field. -/
inductive FileContent where
  | eventFile (account tz : String) (e : Event)
  | contactFile (account : String) (c : Contact)
  | corrupt (raw : String)
deriving DecidableEq, Repr

/-- A directory entry: file name (the path within the category directory)
plus content. -/
structure FsFile where
  name : String
  content : FileContent
deriving DecidableEq, Repr

/-- Names present in a directory. -/
def dirNames (fs : List FsFile) : List String :=
  fs.map (fun f => f.name)

/-- Model of `strings.HasSuffix` (byte suffix; for the ASCII suffix ".md"
this coincides with the character-level suffix test). -/
def strHasSuffix (s suf : String) : Bool :=
  List.isSuffixOf suf.data s.data

/-- Model of `strings.TrimSuffix(s, ".md")`. -/
def trimSuffixMd (p : String) : String :=
  if strHasSuffix p ".md" then String.mk (p.data.take (p.data.length - 3)) else p

/-- Model of `extractIDFromFile` (sync.go): recover the `id` front matter
field, failing on undecodable or id-less files. -/
def extractIDFromFile : FileContent → Option String
  | .eventFile _ _ e => some e.id
  | .contactFile _ c => some c.id
  | .corrupt _ => none

/-- The identity a file contributes to the directory index: only `.md`
files with a decodable `id` participate. -/
def liveId (f : FsFile) : Option String :=
  if strHasSuffix f.name ".md" then extractIDFromFile f.content else none

/-- Model of `os.WriteFile`: truncate-replace an existing name, or create
a new entry. -/
def writeFile (fs : List FsFile) (name : String) (c : FileContent) : List FsFile :=
  if fs.any (fun f => f.name == name) then
    fs.map (fun f => if f.name == name then ⟨name, c⟩ else f)
  else
    fs ++ [⟨name, c⟩]

/-- Model of `os.Remove`. -/
def removeFile (fs : List FsFile) (name : String) : List FsFile :=
  fs.filter (fun f => !(f.name == name))

/-- Model of `os.Rename old new` (move; overwrites `new` if present; no-op
if `old` is absent, matching the engine which ignores the rename error). -/
def renameFile (fs : List FsFile) (oldName newName : String) : List FsFile :=
  match fs.find? (fun f => f.name == oldName) with
  | none => fs
  | some f => writeFile (removeFile fs oldName) newName f.content

/-- Model of `findFileByID` (sync.go): first `.md` file in enumeration
order whose front matter `id` matches. -/
def findFileByID (fs : List FsFile) (id : String) : Option String :=
  match fs.find? (fun f => strHasSuffix f.name ".md" && (extractIDFromFile f.content == some id)) with
  | some f => some f.name
  | none => none

/-- Model of `auth.Slugify`: keep lowercase ASCII alphanumerics. -/
def slugChar (c : Char) : Char :=
  if ('a' ≤ c ∧ c ≤ 'z') ∨ ('0' ≤ c ∧ c ≤ '9') then c else '-'

/-- Collapse each run of consecutive dashes to a single dash — the unique
fixpoint the repeated `strings.ReplaceAll(slug, "--", "-")` loop of
`auth.Slugify` converges to. -/
def collapseDashes : List Char → List Char
  | [] => []
  | c :: rest =>
    let r := collapseDashes rest
    if c == '-' then
      match r with
      | '-' :: _ => r
      | _ => '-' :: r
    else c :: r

/-- Model of `strings.Trim(slug, "-")`. -/
def trimDashes (l : List Char) : List Char :=
  ((l.dropWhile (fun c => c == '-')).reverse.dropWhile (fun c => c == '-')).reverse

/-- Model of `auth.Slugify` (ASCII case folding; non-ASCII runes map to a
dash either way). -/
def Slugify (text : String) (maxLen : Nat) : String :=
  let mapped := text.data.map (fun c => slugChar c.toLower)
  let trimmed := trimDashes (collapseDashes mapped)
  String.mk (trimmed.take maxLen)

/-- The candidate filenames `auth.GenerateUniqueFilename` probes, in probe
order: `base.ext`, then `base-2.ext`, `base-3.ext`, …. -/
def candidateName (base ext : String) : Nat → String
  | 0 => base ++ ext
  | k + 1 => base ++ "-" ++ Nat.repr (k + 2) ++ ext

/-- The probe loop of `auth.GenerateUniqueFilename`, fuelled. The fuel is
never exhausted when it is at least `names.length + 1` (the candidates are
pairwise distinct, see `candidateName_inj` and `exists_free_candidate`
below), so the fuelled function agrees with the unbounded Go loop. -/
def gufGo (names : List String) (base ext : String) : Nat → Nat → String
  | i, 0 => candidateName base ext i
  | i, fuel + 1 =>
    if candidateName base ext i ∈ names then gufGo names base ext (i + 1) fuel
    else candidateName base ext i

/-- Model of `auth.GenerateUniqueFilename`: the first candidate name not
already present in the directory. -/
def GenerateUniqueFilename (names : List String) (base ext : String) : String :=
  gufGo names base ext 0 (names.length + 1)

/-- Characters before the first `'T'`: the `strings.Split(s, "T")[0]`
date part of a Graph datetime. -/
def takeUntilT : List Char → List Char
  | [] => []
  | c :: rest => if c == 'T' then [] else c :: takeUntilT rest

/-- Desired base filename for an event, per `WriteEventFile`:
`<date-part-of-start>-<slug-of-subject>` with the empty-slug fallback. -/
def eventDesiredBase (e : Event) : String :=
  let startDate := String.mk (takeUntilT e.startDateTime.data)
  let slug := Slugify e.subject 60
  let slug2 := if slug == "" then "untitled" else slug
  startDate ++ "-" ++ slug2

/-- Desired slug for a contact, per `WriteContactFile`. -/
def contactSlug (c : Contact) : String :=
  let slug := Slugify c.displayName 60
  if slug == "" then "unnamed" else slug

/-- Result of one record write: the directory afterwards, the path written
(`none` when the content write failed), and whether an `os.Rename` was
performed. -/
structure WriteResult where
  fs : List FsFile
  path? : Option String
  renamed : Bool
deriving DecidableEq, Repr

/-- Model of `WriteEventFile` (sync.go): find the file owning this event
id; rename it first when the desired base name changed (the rename happens
before the content write, so an injected write failure still leaves the
rename applied); then fully rewrite the content. -/
def WriteEventFile (failWrite : List String) (account tz : String)
    (fs : List FsFile) (e : Event) : WriteResult :=
  let desiredBase := eventDesiredBase e
  match findFileByID fs e.id with
  | some p =>
    if trimSuffixMd p == desiredBase then
      if e.id ∈ failWrite then ⟨fs, none, false⟩
      else ⟨writeFile fs p (.eventFile account tz e), some p, false⟩
    else
      let newName := GenerateUniqueFilename (dirNames fs) desiredBase ".md"
      let fs1 := renameFile fs p newName
      if e.id ∈ failWrite then ⟨fs1, none, true⟩
      else ⟨writeFile fs1 newName (.eventFile account tz e), some newName, true⟩
  | none =>
    let newName := GenerateUniqueFilename (dirNames fs) desiredBase ".md"
    if e.id ∈ failWrite then ⟨fs, none, false⟩
    else ⟨writeFile fs newName (.eventFile account tz e), some newName, false⟩

/-- Model of `WriteContactFile` (sync.go): update in place when a file
with this contact id exists, otherwise create under a fresh name. There is
no rename branch for contacts. -/
def WriteContactFile (failWrite : List String) (account : String)
    (fs : List FsFile) (c : Contact) : WriteResult :=
  match findFileByID fs c.id with
  | some p =>
    if c.id ∈ failWrite then ⟨fs, none, false⟩
    else ⟨writeFile fs p (.contactFile account c), some p, false⟩
  | none =>
    let fname := GenerateUniqueFilename (dirNames fs) (contactSlug c) ".md"
    if c.id ∈ failWrite then ⟨fs, none, false⟩
    else ⟨writeFile fs fname (.contactFile account c), some fname, false⟩

/-- Model of `deleteContactByID` (sync.go): remove every `.md` file whose
front matter id matches; undecodable files are skipped. -/
def deleteContactByID (fs : List FsFile) (id : String) : List FsFile :=
  fs.filter (fun f => !(strHasSuffix f.name ".md" && (extractIDFromFile f.content == some id)))

/-- Model of the per-account sync state side-car record. -/
structure SyncState where
  lastSync : String
  contactsDeltaLink : String
deriving DecidableEq, Repr

/-- Model of `updateSyncState` (sync.go): overwrite the delta link only
when given a non-empty value; default the timestamp to `now`. -/
def updateSyncState (st : SyncState) (deltaLink lastSync now : String) : SyncState :=
  let st1 := if deltaLink == "" then st else { st with contactsDeltaLink := deltaLink }
  let ls := if lastSync == "" then now else lastSync
  { st1 with lastSync := ls }

/-- Association-list update with map-assignment semantics
(`writtenPaths[event.ID] = path`). -/
def updateAssoc (paths : List (String × String)) (k v : String) : List (String × String) :=
  if paths.any (fun q => q.1 == k) then
    paths.map (fun q => if q.1 == k then (k, v) else q)
  else paths ++ [(k, v)]

/-- Association-list lookup (`writtenPaths[id]`). -/
def lookupAssoc (paths : List (String × String)) (k : String) : Option String :=
  match paths.find? (fun q => q.1 == k) with
  | some q => some q.2
  | none => none

/-- The event-writing loop of `SyncCalendar`: thread the directory through
the writes, record the canonical path per event id, count warnings (failed
writes) and renames. -/
def applyEvents (failWrite : List String) (account tz : String) :
    List Event → List FsFile → List (String × String) → Nat → Nat →
    List FsFile × List (String × String) × Nat × Nat
  | [], fs, paths, w, r => (fs, paths, w, r)
  | e :: rest, fs, paths, w, r =>
    let res := WriteEventFile failWrite account tz fs e
    let r1 := if res.renamed then r + 1 else r
    match res.path? with
    | none => applyEvents failWrite account tz rest res.fs paths (w + 1) r1
    | some p => applyEvents failWrite account tz rest res.fs (updateAssoc paths e.id p) w r1

/-- The sweep predicate of `SyncCalendar`: keep a file unless it is an
`.md` file with a decodable id whose path is not the canonical path
written for that id this pass. -/
def keepInSweep (paths : List (String × String)) (f : FsFile) : Bool :=
  if strHasSuffix f.name ".md" then
    match extractIDFromFile f.content with
    | none => true
    | some i =>
      match lookupAssoc paths i with
      | none => false
      | some canonical => f.name == canonical
  else true

/-- Outcome of one full-window calendar pass. -/
structure CalPassResult where
  fetchFailed : Bool
  fs : List FsFile
  state : SyncState
  warnings : Nat
  renames : Nat
  deleted : Nat
deriving DecidableEq, Repr

/-- Model of `SyncCalendar` (sync.go): fetch the full window (`none`
models a fetch error and aborts before touching anything), write every
event, sweep non-canonical files, then commit state with an empty delta
link. -/
def SyncCalendar (fetch : Option (List Event)) (failWrite : List String)
    (account tz now : String) (fs0 : List FsFile) (st : SyncState) : CalPassResult :=
  match fetch with
  | none => ⟨true, fs0, st, 0, 0, 0⟩
  | some events =>
    match applyEvents failWrite account tz events fs0 [] 0 0 with
    | (fs1, paths, w, r) =>
      let fs2 := fs1.filter (fun f => keepInSweep paths f)
      let deleted := (fs1.filter (fun f => !(keepInSweep paths f))).length
      ⟨false, fs2, updateSyncState st "" "" now, w, r, deleted⟩

/-- One page of a Graph delta response. -/
structure DeltaPage where
  contacts : List Contact
  nextLink : String
  deltaLink : String
deriving DecidableEq, Repr

/-- Model of `graph.GetContactsDelta`: drain the page chain (`none` in the
chain models a page-fetch failure); on any failure abort the whole call
with no partial result and no cursor; stop early when a page carries a
delta link. The chain list is the sequence of responses the server yields
for the successive urls. -/
def GetContactsDelta : List (Option DeltaPage) → Option (List Contact × String)
  | [] => some ([], "")
  | none :: _ => none
  | some p :: rest =>
    if p.deltaLink == "" then
      if p.nextLink == "" then some (p.contacts, "")
      else
        match GetContactsDelta rest with
        | none => none
        | some (cs, dl) => some (p.contacts ++ cs, dl)
    else some (p.contacts, p.deltaLink)

/-- The contact-processing loop of `SyncContacts`: tombstones delete by
id, others are written; failed writes are counted as warnings. -/
def applyContacts (failWrite : List String) (account : String) :
    List Contact → List FsFile → Nat → Nat → Nat →
    List FsFile × Nat × Nat × Nat
  | [], fs, w, nc, dc => (fs, w, nc, dc)
  | c :: rest, fs, w, nc, dc =>
    if c.removed then
      applyContacts failWrite account rest (deleteContactByID fs c.id) w nc (dc + 1)
    else
      let res := WriteContactFile failWrite account fs c
      match res.path? with
      | none => applyContacts failWrite account rest res.fs (w + 1) nc dc
      | some _ => applyContacts failWrite account rest res.fs w (nc + 1) dc

/-- Outcome of one delta contacts pass. -/
structure ContactsPassResult where
  fetchFailed : Bool
  fs : List FsFile
  state : SyncState
  warnings : Nat
  newCount : Nat
  deletedCount : Nat
deriving DecidableEq, Repr

/-- Model of `SyncContacts` (sync.go): run the delta call (aborting before
touching anything if it fails), apply records and tombstones, then commit
state with the new delta link. -/
def SyncContacts (chain : List (Option DeltaPage)) (failWrite : List String)
    (account now : String) (fs0 : List FsFile) (st : SyncState) : ContactsPassResult :=
  match GetContactsDelta chain with
  | none => ⟨true, fs0, st, 0, 0, 0⟩
  | some (contacts, newDeltaLink) =>
    match applyContacts failWrite account contacts fs0 0 0 0 with
    | (fs1, w, nc, dc) =>
      ⟨false, fs1, updateSyncState st newDeltaLink "" now, w, nc, dc⟩

/-- Number of live files carrying a given id. -/
def idCount (fs : List FsFile) (i : String) : Nat :=
  (fs.filter (fun f => liveId f == some i)).length

/-- The directory identity invariant: at most one live file per record id. -/
def AtMostOnePerId (fs : List FsFile) : Prop :=
  ∀ i : String, idCount fs i ≤ 1

/-- Well-formedness of a directory listing: entry names are distinct. -/
def NamesNodup (fs : List FsFile) : Prop :=
  (dirNames fs).Nodup

/-- Numeric value of a decimal digit character (used to show `Nat.repr`
is injective, which the collision-suffix freshness argument needs). -/
def digitVal (c : Char) : Nat := c.toNat - 48

/-- Value of a most-significant-first decimal digit string. -/
def valOfDigits (l : List Char) : Nat :=
  l.foldl (fun a c => a * 10 + digitVal c) 0

/-- Sample corrupt local file (undecodable front matter). -/
def strayFile : FsFile := ⟨"stray.md", FileContent.corrupt "not yaml"⟩

/-- Sample tombstone contact with no matching local file. -/
def ghostTombstone : Contact := ⟨"ghost-id", "Ghost", "", "", "", "", true⟩

/-- Sample delta page that continues the chain. -/
def pageOne : DeltaPage := ⟨[⟨"cid1", "Ann", "", "", "", "", false⟩], "next-url", ""⟩

/-- Sample final delta page carrying the new cursor. -/
def pageTwo : DeltaPage := ⟨[⟨"cid2", "Bob", "", "", "", "", false⟩], "", "delta-url"⟩

/-- Two events sharing start date and subject slug: they derive the same
base filename `2025-03-10-standup`. -/
def collideEvent1 : Event :=
  ⟨"id-1", "standup", "2025-03-10T09:00:00", "UTC", "2025-03-10T09:30:00", "UTC",
    false, "normal", "lm1", "b1"⟩

/-- Second event of the colliding pair. -/
def collideEvent2 : Event :=
  ⟨"id-2", "standup", "2025-03-10T10:00:00", "UTC", "2025-03-10T10:30:00", "UTC",
    false, "normal", "lm2", "b2"⟩

/-- First full-window pass over the colliding pair, from an empty dir. -/
def c1FirstPass : CalPassResult :=
  SyncCalendar (some [collideEvent1, collideEvent2]) [] "acct" "UTC" "t1" [] ⟨"", ""⟩

/-- Second full-window pass over the unchanged remote set. -/
def c1SecondPass : CalPassResult :=
  SyncCalendar (some [collideEvent1, collideEvent2]) [] "acct" "UTC" "t2"
    c1FirstPass.fs ⟨"", ""⟩

/-- A contact as it was when first synced. -/
def renamedContactOld : Contact := ⟨"cid-r", "Old Name", "", "", "", "lm0", false⟩

/-- The same contact after its display name (natural key) changed. -/
def renamedContactNew : Contact := ⟨"cid-r", "New Name", "", "", "", "lm1", false⟩

/-- Directory holding the contact's file under its old derived name. -/
def contactDir0 : List FsFile :=
  [⟨"old-name.md", FileContent.contactFile "acct" renamedContactOld⟩]

/-- Delta pass delivering the renamed contact. -/
def c4Pass : ContactsPassResult :=
  SyncContacts [some ⟨[renamedContactNew], "", "dl-new"⟩] [] "acct" "t1"
    contactDir0 ⟨"", ""⟩

/-- An event as it was when first synced. -/
def c4EvOld : Event :=
  ⟨"eid", "old title", "2025-02-01T09:00:00", "UTC", "2025-02-01T10:00:00", "UTC",
    false, "normal", "lm0", "b0"⟩

/-- The same event after its subject (natural key) changed. -/
def c4EvNew : Event :=
  ⟨"eid", "new title", "2025-02-01T09:00:00", "UTC", "2025-02-01T10:00:00", "UTC",
    false, "normal", "lm1", "b1"⟩

/-- Directory holding the event's file under its old derived name. -/
def c4EventDir : List FsFile :=
  [⟨"2025-02-01-old-title.md", FileContent.eventFile "acct" "UTC" c4EvOld⟩]

/-- Batch record A for the partial-failure scenario. -/
def evA : Event :=
  ⟨"id-a", "alpha", "2025-01-02T10:00:00", "UTC", "2025-01-02T11:00:00", "UTC",
    false, "normal", "lma", "ba"⟩

/-- Batch record B (its content write fails) for the partial-failure
scenario. -/
def evB : Event :=
  ⟨"id-b", "beta", "2025-01-03T10:00:00", "UTC", "2025-01-03T11:00:00", "UTC",
    false, "normal", "lmb", "bb"⟩

/-- Batch record C for the partial-failure scenario. -/
def evC : Event :=
  ⟨"id-c", "gamma", "2025-01-04T10:00:00", "UTC", "2025-01-04T11:00:00", "UTC",
    false, "normal", "lmc", "bc"⟩

/-- Directory holding B's file from a previous pass. -/
def preDirB : List FsFile :=
  [⟨"2025-01-03-beta.md", FileContent.eventFile "acct" "UTC" evB⟩]

/-- Full-window pass in which writing B fails while A and C succeed. -/
def c2Pass : CalPassResult :=
  SyncCalendar (some [evA, evB, evC]) ["id-b"] "acct" "UTC" "t1" preDirB ⟨"old", "dl0"⟩

-- more definitions are inserted above this line

end Md365

namespace Md365

/-! Injectivity of `Nat.repr`, needed to show the probe candidates of
`GenerateUniqueFilename` are pairwise distinct, hence that the probe loop
always finds a name not present in the directory. -/

theorem foldl_digit_shift (l : List Char) (a : Nat) :
    l.foldl (fun a c => a * 10 + digitVal c) a = a * 10 ^ l.length + valOfDigits l := by
  induction l generalizing a with
  | nil => simp [valOfDigits]
  | cons c t ih =>
    simp only [List.foldl_cons, List.length_cons, valOfDigits]
    rw [ih (a * 10 + digitVal c), ih (0 * 10 + digitVal c)]
    ring

theorem digitVal_digitChar (d : Nat) (h : d < 10) :
    digitVal (Nat.digitChar d) = d := by
  interval_cases d <;> decide

theorem valOfDigits_toDigitsCore :
    ∀ (fuel n : Nat) (ds : List Char), n < fuel →
      valOfDigits (Nat.toDigitsCore 10 fuel n ds) = n * 10 ^ ds.length + valOfDigits ds := by
  intro fuel
  induction fuel with
  | zero => intro n ds h; omega
  | succ f ih =>
    intro n ds h
    simp only [Nat.toDigitsCore]
    by_cases hz : n / 10 = 0
    · rw [if_pos hz]
      have hn : n % 10 = n := by omega
      simp only [valOfDigits, List.foldl_cons]
      rw [foldl_digit_shift]
      rw [digitVal_digitChar (n % 10) (by omega), hn]
      simp [valOfDigits]
    · rw [if_neg hz]
      have hlt : n / 10 < f := by omega
      rw [ih (n / 10) (Nat.digitChar (n % 10) :: ds) hlt]
      simp only [List.length_cons, valOfDigits, List.foldl_cons]
      rw [foldl_digit_shift]
      rw [digitVal_digitChar (n % 10) (by omega)]
      conv_rhs => rw [← Nat.div_add_mod n 10]
      simp only [valOfDigits]
      ring

theorem valOfDigits_toDigits (n : Nat) : valOfDigits (Nat.toDigits 10 n) = n := by
  have h := valOfDigits_toDigitsCore (n + 1) n [] (Nat.lt_succ_self n)
  simpa [Nat.toDigits, valOfDigits] using h

theorem natRepr_injective : Function.Injective Nat.repr := by
  intro m n h
  have hd : Nat.toDigits 10 m = Nat.toDigits 10 n := by
    have h2 := congrArg String.data h
    simpa [Nat.repr, List.asString] using h2
  have h3 := congrArg valOfDigits hd
  rwa [valOfDigits_toDigits, valOfDigits_toDigits] at h3

theorem toDigitsCore_length_lb :
    ∀ (fuel n : Nat) (ds : List Char), 1 ≤ fuel →
      ds.length + 1 ≤ (Nat.toDigitsCore 10 fuel n ds).length := by
  intro fuel
  induction fuel with
  | zero => intro n ds h; omega
  | succ f ih =>
    intro n ds _
    simp only [Nat.toDigitsCore]
    by_cases hz : n / 10 = 0
    · rw [if_pos hz]; simp
    · rw [if_neg hz]
      cases f with
      | zero => simp [Nat.toDigitsCore]
      | succ f2 =>
        have h2 := ih (n / 10) (Nat.digitChar (n % 10) :: ds) (by omega)
        simp only [List.length_cons] at h2
        omega

theorem repr_data_length_pos (n : Nat) : 1 ≤ (Nat.repr n).data.length := by
  have h := toDigitsCore_length_lb (n + 1) n [] (by omega)
  simpa [Nat.repr, Nat.toDigits, List.asString] using h

/-! Freshness of `GenerateUniqueFilename`: the returned name is never one
of the names already present, because the probe candidates are pairwise
distinct, so the `names.length + 1` probes cannot all collide. -/

theorem candidateName_inj (base ext : String) :
    Function.Injective (candidateName base ext) := by
  intro j k h
  match j, k with
  | 0, 0 => rfl
  | 0, k + 1 =>
    exfalso
    have hd := congrArg (fun s => s.data.length) h
    simp only [candidateName, String.data_append, List.length_append] at hd
    have hp := repr_data_length_pos (k + 2)
    simp at hd
    omega
  | j + 1, 0 =>
    exfalso
    have hd := congrArg (fun s => s.data.length) h
    simp only [candidateName, String.data_append, List.length_append] at hd
    have hp := repr_data_length_pos (j + 2)
    simp at hd
    omega
  | j + 1, k + 1 =>
    have hd := congrArg String.data h
    simp only [candidateName, String.data_append, List.append_assoc] at hd
    have h1 := List.append_cancel_left hd
    have h2 := List.append_cancel_left h1
    have h3 := List.append_cancel_right h2
    have h4 : Nat.repr (j + 2) = Nat.repr (k + 2) := String.ext h3
    have h5 := natRepr_injective h4
    omega

theorem exists_free_candidate (names : List String) (base ext : String) :
    ∃ j, j ≤ names.length ∧ candidateName base ext j ∉ names := by
  by_contra hc
  push_neg at hc
  have hsub : (List.range (names.length + 1)).map (candidateName base ext) ⊆ names := by
    intro x hx
    rcases List.mem_map.mp hx with ⟨j, hj, rfl⟩
    have hj2 : j < names.length + 1 := List.mem_range.mp hj
    exact hc j (by omega)
  have hnd : ((List.range (names.length + 1)).map (candidateName base ext)).Nodup :=
    (List.nodup_range _).map (candidateName_inj base ext)
  have hle := (List.subperm_of_subset hnd hsub).length_le
  simp at hle

theorem gufGo_not_mem (names : List String) (base ext : String) :
    ∀ (fuel i : Nat), (∃ j, j ≤ fuel ∧ candidateName base ext (i + j) ∉ names) →
      gufGo names base ext i fuel ∉ names := by
  intro fuel
  induction fuel with
  | zero =>
    intro i h
    obtain ⟨j, hj, hfree⟩ := h
    have hj0 : j = 0 := by omega
    subst hj0
    simpa [gufGo] using hfree
  | succ f ih =>
    intro i h
    obtain ⟨j, hj, hfree⟩ := h
    simp only [gufGo]
    by_cases hmem : candidateName base ext i ∈ names
    · rw [if_pos hmem]
      apply ih
      cases j with
      | zero => exact absurd hmem (by simpa using hfree)
      | succ j2 =>
        refine ⟨j2, by omega, ?_⟩
        have he : i + (j2 + 1) = i + 1 + j2 := by omega
        rwa [he] at hfree
    · rw [if_neg hmem]
      exact hmem

theorem guf_not_mem (names : List String) (base ext : String) :
    GenerateUniqueFilename names base ext ∉ names := by
  obtain ⟨j, hj, hfree⟩ := exists_free_candidate names base ext
  exact gufGo_not_mem names base ext (names.length + 1) 0 ⟨j, by omega, by simpa using hfree⟩

theorem gufGo_shape (names : List String) (base ext : String) :
    ∀ (fuel i : Nat), ∃ j, gufGo names base ext i fuel = candidateName base ext (i + j) := by
  intro fuel
  induction fuel with
  | zero => intro i; exact ⟨0, rfl⟩
  | succ f ih =>
    intro i
    simp only [gufGo]
    by_cases hmem : candidateName base ext i ∈ names
    · rw [if_pos hmem]
      obtain ⟨j, hj⟩ := ih (i + 1)
      refine ⟨j + 1, ?_⟩
      rw [hj]
      congr 1
      omega
    · rw [if_neg hmem]
      exact ⟨0, rfl⟩

theorem guf_shape (names : List String) (base ext : String) :
    ∃ j, GenerateUniqueFilename names base ext = candidateName base ext j := by
  obtain ⟨j, hj⟩ := gufGo_shape names base ext (names.length + 1) 0
  exact ⟨0 + j, hj⟩

theorem candidateName_hasSuffix (base ext : String) (j : Nat) :
    strHasSuffix (candidateName base ext j) ext = true := by
  cases j with
  | zero =>
    simp only [candidateName, strHasSuffix, String.data_append]
    simp [List.isSuffixOf_iff_suffix]
  | succ k =>
    simp only [candidateName, strHasSuffix, String.data_append]
    rw [List.isSuffixOf_iff_suffix]
    exact ⟨base.data ++ "-".data ++ (Nat.repr (k + 2)).data, by simp⟩

theorem guf_hasSuffix (names : List String) (base ext : String) :
    strHasSuffix (GenerateUniqueFilename names base ext) ext = true := by
  obtain ⟨j, hj⟩ := guf_shape names base ext
  rw [hj]
  exact candidateName_hasSuffix base ext j

/-! Elementary facts about the modelled directory operations. -/

theorem any_name_eq (fs : List FsFile) (n : String) :
    fs.any (fun f => f.name == n) = true ↔ n ∈ dirNames fs := by
  rw [List.any_eq_true]
  constructor
  · rintro ⟨f, hf, he⟩
    exact List.mem_map.mpr ⟨f, hf, by simpa using he⟩
  · intro h
    obtain ⟨f, hf, he⟩ := List.mem_map.mp h
    exact ⟨f, hf, by simp [he]⟩

theorem mem_writeFile_of_ne (fs : List FsFile) (n : String) (c : FileContent)
    (f : FsFile) (hf : f ∈ fs) (hne : f.name ≠ n) : f ∈ writeFile fs n c := by
  unfold writeFile
  by_cases h : fs.any (fun g => g.name == n) = true
  · rw [if_pos h]
    exact List.mem_map.mpr ⟨f, hf, by simp [hne]⟩
  · rw [if_neg h]
    exact List.mem_append_left _ hf

theorem self_mem_writeFile (fs : List FsFile) (n : String) (c : FileContent) :
    (⟨n, c⟩ : FsFile) ∈ writeFile fs n c := by
  unfold writeFile
  by_cases h : fs.any (fun g => g.name == n) = true
  · rw [if_pos h]
    obtain ⟨f, hf, he⟩ := List.any_eq_true.mp h
    exact List.mem_map.mpr ⟨f, hf, by simp [he]⟩
  · rw [if_neg h]
    exact List.mem_append_right _ (by simp)

theorem mem_writeFile_elim (fs : List FsFile) (n : String) (c : FileContent)
    (g : FsFile) (hg : g ∈ writeFile fs n c) : g ∈ fs ∨ g = ⟨n, c⟩ := by
  unfold writeFile at hg
  by_cases h : fs.any (fun f => f.name == n) = true
  · rw [if_pos h] at hg
    obtain ⟨f, hf, he⟩ := List.mem_map.mp hg
    by_cases hn : f.name = n
    · right; rw [← he]; simp [hn]
    · left; rw [← he]; simpa [hn] using hf
  · rw [if_neg h] at hg
    rcases List.mem_append.mp hg with h1 | h2
    · exact Or.inl h1
    · right; simpa using h2

theorem dirNames_writeFile_present (fs : List FsFile) (n : String) (c : FileContent)
    (h : n ∈ dirNames fs) : dirNames (writeFile fs n c) = dirNames fs := by
  unfold writeFile
  rw [if_pos ((any_name_eq fs n).mpr h)]
  unfold dirNames
  rw [List.map_map]
  apply List.map_congr_left
  intro f hf
  by_cases hn : f.name = n <;> simp [hn]

theorem dirNames_writeFile_absent (fs : List FsFile) (n : String) (c : FileContent)
    (h : n ∉ dirNames fs) : dirNames (writeFile fs n c) = dirNames fs ++ [n] := by
  unfold writeFile
  rw [if_neg]
  · simp [dirNames]
  · intro hc
    exact h ((any_name_eq fs n).mp hc)

theorem namesNodup_writeFile (fs : List FsFile) (n : String) (c : FileContent)
    (h : NamesNodup fs) : NamesNodup (writeFile fs n c) := by
  unfold NamesNodup at *
  by_cases hp : n ∈ dirNames fs
  · rw [dirNames_writeFile_present fs n c hp]; exact h
  · rw [dirNames_writeFile_absent fs n c hp]
    simp [List.nodup_append, h, hp]

theorem mem_removeFile_of_ne (fs : List FsFile) (n : String) (f : FsFile)
    (hf : f ∈ fs) (hne : f.name ≠ n) : f ∈ removeFile fs n :=
  List.mem_filter.mpr ⟨hf, by simp [hne]⟩

theorem mem_removeFile_elim (fs : List FsFile) (n : String) (g : FsFile)
    (hg : g ∈ removeFile fs n) : g ∈ fs ∧ g.name ≠ n := by
  have h := List.mem_filter.mp hg
  refine ⟨h.1, ?_⟩
  have := h.2
  simpa using this

theorem dirNames_removeFile_sublist (fs : List FsFile) (n : String) :
    List.Sublist (dirNames (removeFile fs n)) (dirNames fs) := by
  unfold dirNames removeFile
  exact (List.filter_sublist fs).map (fun f => f.name)

theorem namesNodup_removeFile (fs : List FsFile) (n : String) (h : NamesNodup fs) :
    NamesNodup (removeFile fs n) :=
  (dirNames_removeFile_sublist fs n).nodup h

theorem nodup_names_eq (fs : List FsFile) (h : NamesNodup fs)
    (f g : FsFile) (hf : f ∈ fs) (hg : g ∈ fs) (he : f.name = g.name) : f = g := by
  induction fs with
  | nil => cases hf
  | cons a t ih =>
    have hsplit : a.name ∉ dirNames t ∧ NamesNodup t := by
      have h2 : (a.name :: dirNames t).Nodup := h
      exact ⟨(List.nodup_cons.mp h2).1, (List.nodup_cons.mp h2).2⟩
    rcases List.mem_cons.mp hf with rfl | hf2
    · rcases List.mem_cons.mp hg with rfl | hg2
      · rfl
      · exact absurd (he ▸ List.mem_map.mpr ⟨g, hg2, rfl⟩) hsplit.1
    · rcases List.mem_cons.mp hg with rfl | hg2
      · exact absurd (he ▸ List.mem_map.mpr ⟨f, hf2, rfl⟩) hsplit.1
      · exact ih hsplit.2 hf2 hg2

theorem length_le_one_of_all_name_eq (l : List FsFile) (c : String)
    (hnd : (l.map (fun f => f.name)).Nodup) (h : ∀ f ∈ l, f.name = c) :
    l.length ≤ 1 := by
  match l with
  | [] => simp
  | [f] => simp
  | f :: g :: t =>
    exfalso
    have h1 : f.name = c := h f (by simp)
    have h2 : g.name = c := h g (by simp)
    have : f.name ∉ (g :: t).map (fun f => f.name) := (List.nodup_cons.mp hnd).1
    exact this (by simp [h1, h2])

theorem findFileByID_some (fs : List FsFile) (i p : String)
    (h : findFileByID fs i = some p) :
    ∃ f, f ∈ fs ∧ f.name = p ∧ strHasSuffix f.name ".md" = true ∧
      extractIDFromFile f.content = some i := by
  unfold findFileByID at h
  cases hfind : fs.find?
      (fun f => strHasSuffix f.name ".md" && (extractIDFromFile f.content == some i)) with
  | none => rw [hfind] at h; cases h
  | some f =>
    rw [hfind] at h
    have hp : f.name = p := by injection h
    have hmem := List.mem_of_find?_eq_some hfind
    have hpred := List.find?_some hfind
    simp only [Bool.and_eq_true, beq_iff_eq] at hpred
    exact ⟨f, hmem, hp, hpred.1, hpred.2⟩

theorem findFileByID_none (fs : List FsFile) (i : String)
    (h : findFileByID fs i = none) :
    ∀ f ∈ fs, ¬(strHasSuffix f.name ".md" = true ∧ extractIDFromFile f.content = some i) := by
  unfold findFileByID at h
  cases hfind : fs.find?
      (fun f => strHasSuffix f.name ".md" && (extractIDFromFile f.content == some i)) with
  | some f => rw [hfind] at h; cases h
  | none =>
    intro f hf hc
    have := List.find?_eq_none.mp hfind f hf
    simp only [Bool.and_eq_true, beq_iff_eq] at this
    exact this ⟨hc.1, hc.2⟩

theorem renameFile_found (fs : List FsFile) (p new : String) (f0 : FsFile)
    (hnd : NamesNodup fs) (hf0 : f0 ∈ fs) (hname : f0.name = p) :
    renameFile fs p new = writeFile (removeFile fs p) new f0.content := by
  unfold renameFile
  cases hf2 : fs.find? (fun f => f.name == p) with
  | none =>
    exfalso
    have h := List.find?_eq_none.mp hf2 f0 hf0
    simp [hname] at h
  | some f1 =>
    have hm := List.mem_of_find?_eq_some hf2
    have hp := List.find?_some hf2
    have he : f1 = f0 := by
      apply nodup_names_eq fs hnd f1 f0 hm hf0
      rw [hname]
      simpa using hp
    rw [he]

/-! Branch equations for `WriteEventFile`. -/

theorem weFile_new_fail (fw : List String) (a tz : String) (fs : List FsFile) (e : Event)
    (hfind : findFileByID fs e.id = none) (hfw : e.id ∈ fw) :
    WriteEventFile fw a tz fs e = ⟨fs, none, false⟩ := by
  unfold WriteEventFile
  rw [hfind]
  simp [hfw]

theorem weFile_new_ok (fw : List String) (a tz : String) (fs : List FsFile) (e : Event)
    (hfind : findFileByID fs e.id = none) (hfw : e.id ∉ fw) :
    WriteEventFile fw a tz fs e =
      ⟨writeFile fs (GenerateUniqueFilename (dirNames fs) (eventDesiredBase e) ".md")
          (FileContent.eventFile a tz e),
        some (GenerateUniqueFilename (dirNames fs) (eventDesiredBase e) ".md"), false⟩ := by
  unfold WriteEventFile
  rw [hfind]
  simp [hfw]

theorem weFile_found_same_fail (fw : List String) (a tz : String) (fs : List FsFile)
    (e : Event) (p : String) (hfind : findFileByID fs e.id = some p)
    (hbase : trimSuffixMd p = eventDesiredBase e) (hfw : e.id ∈ fw) :
    WriteEventFile fw a tz fs e = ⟨fs, none, false⟩ := by
  unfold WriteEventFile
  rw [hfind]
  simp [hbase, hfw]

theorem weFile_found_same_ok (fw : List String) (a tz : String) (fs : List FsFile)
    (e : Event) (p : String) (hfind : findFileByID fs e.id = some p)
    (hbase : trimSuffixMd p = eventDesiredBase e) (hfw : e.id ∉ fw) :
    WriteEventFile fw a tz fs e =
      ⟨writeFile fs p (FileContent.eventFile a tz e), some p, false⟩ := by
  unfold WriteEventFile
  rw [hfind]
  simp [hbase, hfw]

theorem weFile_found_diff_fail (fw : List String) (a tz : String) (fs : List FsFile)
    (e : Event) (p : String) (hfind : findFileByID fs e.id = some p)
    (hbase : trimSuffixMd p ≠ eventDesiredBase e) (hfw : e.id ∈ fw) :
    WriteEventFile fw a tz fs e =
      ⟨renameFile fs p (GenerateUniqueFilename (dirNames fs) (eventDesiredBase e) ".md"),
        none, true⟩ := by
  unfold WriteEventFile
  rw [hfind]
  simp [hbase, hfw]

theorem weFile_found_diff_ok (fw : List String) (a tz : String) (fs : List FsFile)
    (e : Event) (p : String) (hfind : findFileByID fs e.id = some p)
    (hbase : trimSuffixMd p ≠ eventDesiredBase e) (hfw : e.id ∉ fw) :
    WriteEventFile fw a tz fs e =
      ⟨writeFile
          (renameFile fs p (GenerateUniqueFilename (dirNames fs) (eventDesiredBase e) ".md"))
          (GenerateUniqueFilename (dirNames fs) (eventDesiredBase e) ".md")
          (FileContent.eventFile a tz e),
        some (GenerateUniqueFilename (dirNames fs) (eventDesiredBase e) ".md"), true⟩ := by
  unfold WriteEventFile
  rw [hfind]
  simp [hbase, hfw]

/-- Consolidated postcondition of one `WriteEventFile` call on a directory
with distinct names: names stay distinct, files carrying a different (or
no) live id are untouched, every file afterwards either existed before or
decodes to this event's id, the write fails exactly for injected ids, and
on success the canonical `.md` file with the freshly encoded content is
present at the reported path. -/
theorem WriteEventFile_step (fw : List String) (a tz : String) (fs : List FsFile)
    (e : Event) (hnd : NamesNodup fs) :
    NamesNodup (WriteEventFile fw a tz fs e).fs
    ∧ (∀ f ∈ fs, liveId f ≠ some e.id → f ∈ (WriteEventFile fw a tz fs e).fs)
    ∧ (∀ g ∈ (WriteEventFile fw a tz fs e).fs,
        g ∈ fs ∨ extractIDFromFile g.content = some e.id)
    ∧ ((WriteEventFile fw a tz fs e).path? = none ↔ e.id ∈ fw)
    ∧ (∀ p, (WriteEventFile fw a tz fs e).path? = some p →
        (⟨p, FileContent.eventFile a tz e⟩ : FsFile) ∈ (WriteEventFile fw a tz fs e).fs
        ∧ strHasSuffix p ".md" = true) := by
  have hfreshname := guf_not_mem (dirNames fs) (eventDesiredBase e) ".md"
  have hsufname := guf_hasSuffix (dirNames fs) (eventDesiredBase e) ".md"
  have hmemname : ∀ f ∈ fs, f.name ∈ dirNames fs := by
    intro f hf
    exact List.mem_map.mpr ⟨f, hf, rfl⟩
  cases hfind : findFileByID fs e.id with
  | none =>
    have hnone := findFileByID_none fs e.id hfind
    by_cases hfw : e.id ∈ fw
    · rw [weFile_new_fail fw a tz fs e hfind hfw]
      refine ⟨hnd, fun f hf _ => hf, fun g hg => Or.inl hg, by simp [hfw], ?_⟩
      intro p hp
      cases hp
    · rw [weFile_new_ok fw a tz fs e hfind hfw]
      refine ⟨namesNodup_writeFile fs _ _ hnd, ?_, ?_, by simp [hfw], ?_⟩
      · intro f hf _
        apply mem_writeFile_of_ne fs _ _ f hf
        intro hcontra
        exact hfreshname (hcontra ▸ hmemname f hf)
      · intro g hg
        rcases mem_writeFile_elim fs _ _ g hg with h1 | h2
        · exact Or.inl h1
        · right; rw [h2]; rfl
      · intro p hp
        have hp2 : GenerateUniqueFilename (dirNames fs) (eventDesiredBase e) ".md" = p := by
          injection hp
        subst hp2
        exact ⟨self_mem_writeFile fs _ _, hsufname⟩
  | some p0 =>
    obtain ⟨f0, hf0mem, hf0name, hf0suf, hf0id⟩ := findFileByID_some fs e.id p0 hfind
    have hf0live : liveId f0 = some e.id := by
      unfold liveId
      rw [if_pos hf0suf]
      exact hf0id
    have hnamene : ∀ f ∈ fs, liveId f ≠ some e.id → f.name ≠ p0 := by
      intro f hf hl hnp
      exact hl ((nodup_names_eq fs hnd f f0 hf hf0mem (hnp.trans hf0name.symm)) ▸ hf0live)
    by_cases hbase : trimSuffixMd p0 = eventDesiredBase e
    · by_cases hfw : e.id ∈ fw
      · rw [weFile_found_same_fail fw a tz fs e p0 hfind hbase hfw]
        refine ⟨hnd, fun f hf _ => hf, fun g hg => Or.inl hg, by simp [hfw], ?_⟩
        intro p hp
        cases hp
      · rw [weFile_found_same_ok fw a tz fs e p0 hfind hbase hfw]
        refine ⟨namesNodup_writeFile fs _ _ hnd, ?_, ?_, by simp [hfw], ?_⟩
        · intro f hf hl
          exact mem_writeFile_of_ne fs _ _ f hf (hnamene f hf hl)
        · intro g hg
          rcases mem_writeFile_elim fs _ _ g hg with h1 | h2
          · exact Or.inl h1
          · right; rw [h2]; rfl
        · intro p hp
          have hp2 : p0 = p := by injection hp
          subst hp2
          exact ⟨self_mem_writeFile fs _ _, hf0name ▸ hf0suf⟩
    · have hren := renameFile_found fs p0
        (GenerateUniqueFilename (dirNames fs) (eventDesiredBase e) ".md") f0 hnd hf0mem hf0name
      have hndrem := namesNodup_removeFile fs p0 hnd
      have hndren : NamesNodup (renameFile fs p0
          (GenerateUniqueFilename (dirNames fs) (eventDesiredBase e) ".md")) := by
        rw [hren]
        exact namesNodup_writeFile _ _ _ hndrem
      have hframe : ∀ f ∈ fs, liveId f ≠ some e.id →
          f ∈ renameFile fs p0
            (GenerateUniqueFilename (dirNames fs) (eventDesiredBase e) ".md") := by
        intro f hf hl
        rw [hren]
        apply mem_writeFile_of_ne _ _ _ f
          (mem_removeFile_of_ne fs p0 f hf (hnamene f hf hl))
        intro hcontra
        exact hfreshname (hcontra ▸ hmemname f hf)
      have helim : ∀ g ∈ renameFile fs p0
            (GenerateUniqueFilename (dirNames fs) (eventDesiredBase e) ".md"),
          g ∈ fs ∨ extractIDFromFile g.content = some e.id := by
        intro g hg
        rw [hren] at hg
        rcases mem_writeFile_elim _ _ _ g hg with h1 | h2
        · exact Or.inl (mem_removeFile_elim fs p0 g h1).1
        · right; rw [h2]; exact hf0id
      by_cases hfw : e.id ∈ fw
      · rw [weFile_found_diff_fail fw a tz fs e p0 hfind hbase hfw]
        refine ⟨hndren, hframe, helim, by simp [hfw], ?_⟩
        intro p hp
        cases hp
      · rw [weFile_found_diff_ok fw a tz fs e p0 hfind hbase hfw]
        refine ⟨namesNodup_writeFile _ _ _ hndren, ?_, ?_, by simp [hfw], ?_⟩
        · intro f hf hl
          apply mem_writeFile_of_ne _ _ _ f (hframe f hf hl)
          intro hcontra
          exact hfreshname (hcontra ▸ hmemname f hf)
        · intro g hg
          rcases mem_writeFile_elim _ _ _ g hg with h1 | h2
          · exact helim g h1
          · right; rw [h2]; rfl
        · intro p hp
          have hp2 : GenerateUniqueFilename (dirNames fs) (eventDesiredBase e) ".md" = p := by
            injection hp
          subst hp2
          exact ⟨self_mem_writeFile _ _ _, hsufname⟩

/-! Branch equations and postconditions for `WriteContactFile` and
`deleteContactByID`. -/

theorem writeFile_present_eq (fs : List FsFile) (n : String) (c : FileContent)
    (h : n ∈ dirNames fs) :
    writeFile fs n c = fs.map (fun f => if f.name == n then ⟨n, c⟩ else f) := by
  unfold writeFile
  rw [if_pos ((any_name_eq fs n).mpr h)]

theorem writeFile_absent_eq (fs : List FsFile) (n : String) (c : FileContent)
    (h : n ∉ dirNames fs) :
    writeFile fs n c = fs ++ [⟨n, c⟩] := by
  unfold writeFile
  rw [if_neg]
  intro hc
  exact h ((any_name_eq fs n).mp hc)

theorem wcFile_found_fail (fw : List String) (a : String) (fs : List FsFile) (c : Contact)
    (p : String) (hfind : findFileByID fs c.id = some p) (hfw : c.id ∈ fw) :
    WriteContactFile fw a fs c = ⟨fs, none, false⟩ := by
  unfold WriteContactFile
  rw [hfind]
  simp [hfw]

theorem wcFile_found_ok (fw : List String) (a : String) (fs : List FsFile) (c : Contact)
    (p : String) (hfind : findFileByID fs c.id = some p) (hfw : c.id ∉ fw) :
    WriteContactFile fw a fs c =
      ⟨writeFile fs p (FileContent.contactFile a c), some p, false⟩ := by
  unfold WriteContactFile
  rw [hfind]
  simp [hfw]

theorem wcFile_new_fail (fw : List String) (a : String) (fs : List FsFile) (c : Contact)
    (hfind : findFileByID fs c.id = none) (hfw : c.id ∈ fw) :
    WriteContactFile fw a fs c = ⟨fs, none, false⟩ := by
  unfold WriteContactFile
  rw [hfind]
  simp [hfw]

theorem wcFile_new_ok (fw : List String) (a : String) (fs : List FsFile) (c : Contact)
    (hfind : findFileByID fs c.id = none) (hfw : c.id ∉ fw) :
    WriteContactFile fw a fs c =
      ⟨writeFile fs (GenerateUniqueFilename (dirNames fs) (contactSlug c) ".md")
          (FileContent.contactFile a c),
        some (GenerateUniqueFilename (dirNames fs) (contactSlug c) ".md"), false⟩ := by
  unfold WriteContactFile
  rw [hfind]
  simp [hfw]

/-- Consolidated postcondition of one `WriteContactFile` call, mirroring
`WriteEventFile_step` (contacts are never renamed, so the frame is by
name-identity of the single updated file). -/
theorem WriteContactFile_step (fw : List String) (a : String) (fs : List FsFile)
    (c : Contact) (hnd : NamesNodup fs) :
    NamesNodup (WriteContactFile fw a fs c).fs
    ∧ (∀ f ∈ fs, liveId f ≠ some c.id → f ∈ (WriteContactFile fw a fs c).fs)
    ∧ (∀ g ∈ (WriteContactFile fw a fs c).fs,
        g ∈ fs ∨ extractIDFromFile g.content = some c.id)
    ∧ ((WriteContactFile fw a fs c).path? = none ↔ c.id ∈ fw) := by
  have hfreshname := guf_not_mem (dirNames fs) (contactSlug c) ".md"
  have hmemname : ∀ f ∈ fs, f.name ∈ dirNames fs := by
    intro f hf
    exact List.mem_map.mpr ⟨f, hf, rfl⟩
  cases hfind : findFileByID fs c.id with
  | none =>
    by_cases hfw : c.id ∈ fw
    · rw [wcFile_new_fail fw a fs c hfind hfw]
      exact ⟨hnd, fun f hf _ => hf, fun g hg => Or.inl hg, by simp [hfw]⟩
    · rw [wcFile_new_ok fw a fs c hfind hfw]
      refine ⟨namesNodup_writeFile fs _ _ hnd, ?_, ?_, by simp [hfw]⟩
      · intro f hf _
        apply mem_writeFile_of_ne fs _ _ f hf
        intro hcontra
        exact hfreshname (hcontra ▸ hmemname f hf)
      · intro g hg
        rcases mem_writeFile_elim fs _ _ g hg with h1 | h2
        · exact Or.inl h1
        · right; rw [h2]; rfl
  | some p0 =>
    obtain ⟨f0, hf0mem, hf0name, hf0suf, hf0id⟩ := findFileByID_some fs c.id p0 hfind
    have hf0live : liveId f0 = some c.id := by
      unfold liveId
      rw [if_pos hf0suf]
      exact hf0id
    have hnamene : ∀ f ∈ fs, liveId f ≠ some c.id → f.name ≠ p0 := by
      intro f hf hl hnp
      exact hl ((nodup_names_eq fs hnd f f0 hf hf0mem (hnp.trans hf0name.symm)) ▸ hf0live)
    by_cases hfw : c.id ∈ fw
    · rw [wcFile_found_fail fw a fs c p0 hfind hfw]
      exact ⟨hnd, fun f hf _ => hf, fun g hg => Or.inl hg, by simp [hfw]⟩
    · rw [wcFile_found_ok fw a fs c p0 hfind hfw]
      refine ⟨namesNodup_writeFile fs _ _ hnd, ?_, ?_, by simp [hfw]⟩
      · intro f hf hl
        exact mem_writeFile_of_ne fs _ _ f hf (hnamene f hf hl)
      · intro g hg
        rcases mem_writeFile_elim fs _ _ g hg with h1 | h2
        · exact Or.inl h1
        · right; rw [h2]; rfl

/-- An in-place or fresh contact write keeps the per-id multiplicity
bounded. -/
theorem WriteContactFile_atMostOne (fw : List String) (a : String) (fs : List FsFile)
    (c : Contact) (hnd : NamesNodup fs) (hinv : AtMostOnePerId fs) :
    AtMostOnePerId (WriteContactFile fw a fs c).fs := by
  cases hfind : findFileByID fs c.id with
  | none =>
    by_cases hfw : c.id ∈ fw
    · rw [wcFile_new_fail fw a fs c hfind hfw]; exact hinv
    · rw [wcFile_new_ok fw a fs c hfind hfw]
      have hfresh := guf_not_mem (dirNames fs) (contactSlug c) ".md"
      rw [writeFile_absent_eq fs _ _ hfresh]
      intro i
      unfold idCount
      rw [List.filter_append, List.length_append]
      by_cases hic : liveId ⟨GenerateUniqueFilename (dirNames fs) (contactSlug c) ".md",
          FileContent.contactFile a c⟩ = some i
      · have hisc : i = c.id := by
          have hsuf := guf_hasSuffix (dirNames fs) (contactSlug c) ".md"
          unfold liveId at hic
          rw [if_pos hsuf] at hic
          have : some c.id = some i := hic
          injection this with h2
          exact h2.symm
        subst hisc
        have hzero : (fs.filter (fun f => liveId f == some c.id)).length = 0 := by
          rw [List.length_eq_zero]
          rw [List.filter_eq_nil_iff]
          intro f hf
          simp only [beq_iff_eq]
          intro hl
          apply findFileByID_none fs c.id hfind f hf
          unfold liveId at hl
          by_cases hs : strHasSuffix f.name ".md" = true
          · rw [if_pos hs] at hl
            exact ⟨hs, hl⟩
          · rw [if_neg hs] at hl
            cases hl
        rw [hzero]
        have hone := List.length_filter_le (fun f => liveId f == some c.id)
          [(⟨GenerateUniqueFilename (dirNames fs) (contactSlug c) ".md",
            FileContent.contactFile a c⟩ : FsFile)]
        simp only [List.length_singleton] at hone
        omega
      · have : (List.filter (fun f => liveId f == some i)
            [⟨GenerateUniqueFilename (dirNames fs) (contactSlug c) ".md",
              FileContent.contactFile a c⟩]).length = 0 := by
          rw [List.length_eq_zero, List.filter_eq_nil_iff]
          intro f hf
          simp only [List.mem_singleton] at hf
          subst hf
          simp only [beq_iff_eq]
          exact hic
        rw [this]
        have := hinv i
        unfold idCount at this
        omega
  | some p0 =>
    by_cases hfw : c.id ∈ fw
    · rw [wcFile_found_fail fw a fs c p0 hfind hfw]; exact hinv
    · rw [wcFile_found_ok fw a fs c p0 hfind hfw]
      obtain ⟨f0, hf0mem, hf0name, hf0suf, hf0id⟩ := findFileByID_some fs c.id p0 hfind
      rw [writeFile_present_eq fs p0 _ (hf0name ▸ List.mem_map.mpr ⟨f0, hf0mem, rfl⟩)]
      intro i
      unfold idCount
      rw [List.filter_map]
      rw [List.length_map]
      have hcong : List.filter
          ((fun f => liveId f == some i) ∘ fun f => if f.name == p0 then ⟨p0,
            FileContent.contactFile a c⟩ else f) fs
          = List.filter (fun f => liveId f == some i) fs := by
        apply List.filter_congr
        intro f hf
        by_cases hn : f.name = p0
        · have hff0 : f = f0 := nodup_names_eq fs hnd f f0 hf hf0mem (hn.trans hf0name.symm)
          subst hff0
          simp only [Function.comp, hn, beq_self_eq_true, if_pos]
          have h1 : liveId ⟨p0, FileContent.contactFile a c⟩ = some c.id := by
            unfold liveId
            rw [if_pos (hf0name ▸ hf0suf)]
            rfl
          have h2 : liveId f = some c.id := by
            unfold liveId
            rw [if_pos hf0suf]
            exact hf0id
          rw [h1, h2]
        · simp only [Function.comp]
          rw [if_neg (by simpa using hn)]
      rw [hcong]
      exact hinv i

theorem deleteContact_namesNodup (fs : List FsFile) (i : String) (hnd : NamesNodup fs) :
    NamesNodup (deleteContactByID fs i) := by
  unfold NamesNodup dirNames deleteContactByID at *
  exact ((List.filter_sublist fs).map (fun f => f.name)).nodup hnd

theorem deleteContact_atMostOne (fs : List FsFile) (i : String)
    (hinv : AtMostOnePerId fs) : AtMostOnePerId (deleteContactByID fs i) := by
  intro j
  have hsub : List.Sublist
      ((deleteContactByID fs i).filter (fun f => liveId f == some j))
      (fs.filter (fun f => liveId f == some j)) :=
    (List.filter_sublist fs).filter _
  exact le_trans hsub.length_le (hinv j)

theorem deleteContact_mem (fs : List FsFile) (i : String) (f : FsFile) (hf : f ∈ fs)
    (h : ¬(strHasSuffix f.name ".md" = true ∧ extractIDFromFile f.content = some i)) :
    f ∈ deleteContactByID fs i := by
  apply List.mem_filter.mpr
  refine ⟨hf, ?_⟩
  simp only [Bool.not_eq_true', Bool.and_eq_false_iff]
  by_cases hs : strHasSuffix f.name ".md" = true
  · right
    simp only [beq_eq_false_iff_ne, ne_eq]
    intro hc
    exact h ⟨hs, hc⟩
  · left
    simpa using hs

theorem deleteContact_eq_self (fs : List FsFile) (i : String)
    (h : ∀ f ∈ fs, ¬(strHasSuffix f.name ".md" = true ∧
      extractIDFromFile f.content = some i)) :
    deleteContactByID fs i = fs := by
  apply List.filter_eq_self.mpr
  intro f hf
  simp only [Bool.not_eq_true', Bool.and_eq_false_iff]
  by_cases hs : strHasSuffix f.name ".md" = true
  · right
    simp only [beq_eq_false_iff_ne, ne_eq]
    intro hc
    exact h f hf ⟨hs, hc⟩
  · left
    simpa using hs

/-! Fold lemmas over the per-record loops of the two passes, and shape
equations for the passes themselves. -/

theorem applyEvents_facts (fw : List String) (a tz : String) (es : List Event) :
    ∀ (fs : List FsFile) (paths : List (String × String)) (w r : Nat),
      NamesNodup fs →
      NamesNodup (applyEvents fw a tz es fs paths w r).1
      ∧ (∀ f ∈ fs, liveId f = none → f ∈ (applyEvents fw a tz es fs paths w r).1) := by
  induction es with
  | nil =>
    intro fs paths w r hnd
    exact ⟨hnd, fun f hf _ => hf⟩
  | cons e rest ih =>
    intro fs paths w r hnd
    obtain ⟨hnd2, hframe, _, _, _⟩ := WriteEventFile_step fw a tz fs e hnd
    simp only [applyEvents]
    cases hp : (WriteEventFile fw a tz fs e).path? with
    | none =>
      have h := ih (WriteEventFile fw a tz fs e).fs paths (w + 1)
        (if (WriteEventFile fw a tz fs e).renamed then r + 1 else r) hnd2
      refine ⟨h.1, ?_⟩
      intro f hf hl
      exact h.2 f (hframe f hf (by simp [hl])) hl
    | some p =>
      have h := ih (WriteEventFile fw a tz fs e).fs (updateAssoc paths e.id p) w
        (if (WriteEventFile fw a tz fs e).renamed then r + 1 else r) hnd2
      refine ⟨h.1, ?_⟩
      intro f hf hl
      exact h.2 f (hframe f hf (by simp [hl])) hl

theorem applyContacts_facts (fw : List String) (a : String) (cs : List Contact) :
    ∀ (fs : List FsFile) (w nc dc : Nat),
      NamesNodup fs →
      NamesNodup (applyContacts fw a cs fs w nc dc).1
      ∧ (∀ f ∈ fs, liveId f = none → f ∈ (applyContacts fw a cs fs w nc dc).1)
      ∧ (AtMostOnePerId fs → AtMostOnePerId (applyContacts fw a cs fs w nc dc).1) := by
  induction cs with
  | nil =>
    intro fs w nc dc hnd
    exact ⟨hnd, fun f hf _ => hf, fun h => h⟩
  | cons c rest ih =>
    intro fs w nc dc hnd
    simp only [applyContacts]
    by_cases hrem : c.removed = true
    · rw [if_pos hrem]
      have hnd2 := deleteContact_namesNodup fs c.id hnd
      have h := ih (deleteContactByID fs c.id) w nc (dc + 1) hnd2
      refine ⟨h.1, ?_, fun hinv => h.2.2 (deleteContact_atMostOne fs c.id hinv)⟩
      intro f hf hl
      apply h.2.1 f ?_ hl
      apply deleteContact_mem fs c.id f hf
      intro hc
      unfold liveId at hl
      rw [if_pos hc.1, hc.2] at hl
      cases hl
    · rw [if_neg hrem]
      obtain ⟨hnd2, hframe, _, _⟩ := WriteContactFile_step fw a fs c hnd
      have hinvstep := WriteContactFile_atMostOne fw a fs c hnd
      cases hp : (WriteContactFile fw a fs c).path? with
      | none =>
        have h := ih (WriteContactFile fw a fs c).fs (w + 1) nc dc hnd2
        refine ⟨h.1, ?_, fun hinv => h.2.2 (hinvstep hinv)⟩
        intro f hf hl
        exact h.2.1 f (hframe f hf (by simp [hl])) hl
      | some p =>
        have h := ih (WriteContactFile fw a fs c).fs w (nc + 1) dc hnd2
        refine ⟨h.1, ?_, fun hinv => h.2.2 (hinvstep hinv)⟩
        intro f hf hl
        exact h.2.1 f (hframe f hf (by simp [hl])) hl

theorem SyncCalendar_none_eq (fw : List String) (a tz now : String)
    (fs0 : List FsFile) (st : SyncState) :
    SyncCalendar none fw a tz now fs0 st = ⟨true, fs0, st, 0, 0, 0⟩ := rfl

theorem SyncCalendar_some_eq (evs : List Event) (fw : List String) (a tz now : String)
    (fs0 : List FsFile) (st : SyncState) :
    SyncCalendar (some evs) fw a tz now fs0 st =
      ⟨false,
        (applyEvents fw a tz evs fs0 [] 0 0).1.filter
          (fun f => keepInSweep (applyEvents fw a tz evs fs0 [] 0 0).2.1 f),
        updateSyncState st "" "" now,
        (applyEvents fw a tz evs fs0 [] 0 0).2.2.1,
        (applyEvents fw a tz evs fs0 [] 0 0).2.2.2,
        ((applyEvents fw a tz evs fs0 [] 0 0).1.filter
          (fun f => !(keepInSweep (applyEvents fw a tz evs fs0 [] 0 0).2.1 f))).length⟩ := by
  rfl

theorem SyncContacts_fail_eq (chain : List (Option DeltaPage)) (fw : List String)
    (a now : String) (fs0 : List FsFile) (st : SyncState)
    (h : GetContactsDelta chain = none) :
    SyncContacts chain fw a now fs0 st = ⟨true, fs0, st, 0, 0, 0⟩ := by
  unfold SyncContacts
  rw [h]

theorem SyncContacts_ok_eq (chain : List (Option DeltaPage)) (fw : List String)
    (a now : String) (fs0 : List FsFile) (st : SyncState)
    (cs : List Contact) (dl : String) (h : GetContactsDelta chain = some (cs, dl)) :
    SyncContacts chain fw a now fs0 st =
      ⟨false, (applyContacts fw a cs fs0 0 0 0).1,
        updateSyncState st dl "" now,
        (applyContacts fw a cs fs0 0 0 0).2.1,
        (applyContacts fw a cs fs0 0 0 0).2.2.1,
        (applyContacts fw a cs fs0 0 0 0).2.2.2⟩ := by
  unfold SyncContacts
  rw [h]

theorem sweep_keep_of_liveId (paths : List (String × String)) (f : FsFile) (i : String)
    (hk : keepInSweep paths f = true) (hl : liveId f = some i) :
    lookupAssoc paths i = some f.name := by
  unfold keepInSweep at hk
  unfold liveId at hl
  by_cases hs : strHasSuffix f.name ".md" = true
  · rw [if_pos hs] at hk hl
    rw [hl] at hk
    have hk2 : (match lookupAssoc paths i with
        | none => false
        | some canonical => f.name == canonical) = true := hk
    cases hlk : lookupAssoc paths i with
    | none => rw [hlk] at hk2; cases hk2
    | some cpath =>
      rw [hlk] at hk2
      simp only [beq_iff_eq] at hk2
      rw [hk2]
  · rw [if_neg hs] at hl
    cases hl

theorem sweep_keep_corrupt (paths : List (String × String)) (f : FsFile)
    (h : extractIDFromFile f.content = none) : keepInSweep paths f = true := by
  unfold keepInSweep
  by_cases hs : strHasSuffix f.name ".md" = true
  · rw [if_pos hs, h]
  · rw [if_neg hs]

/-- Core of the full-window identity invariant: after the sweep, every
surviving live file sits at the canonical path recorded for its id, and
the canonical map is single-valued, so ids are unique. -/
theorem calendar_pass_atMostOne (evs : List Event) (fw : List String)
    (a tz now : String) (fs0 : List FsFile) (st : SyncState) (hnd : NamesNodup fs0) :
    AtMostOnePerId (SyncCalendar (some evs) fw a tz now fs0 st).fs := by
  rw [SyncCalendar_some_eq]
  have hfold := applyEvents_facts fw a tz evs fs0 [] 0 0 hnd
  intro i
  unfold idCount
  cases hlk : lookupAssoc (applyEvents fw a tz evs fs0 [] 0 0).2.1 i with
  | none =>
    have hempty : ((applyEvents fw a tz evs fs0 [] 0 0).1.filter
        (fun f => keepInSweep (applyEvents fw a tz evs fs0 [] 0 0).2.1 f)).filter
          (fun f => liveId f == some i) = [] := by
      rw [List.filter_eq_nil_iff]
      intro f hf
      have hmem := List.mem_filter.mp hf
      simp only [beq_iff_eq]
      intro hl
      have := sweep_keep_of_liveId _ f i hmem.2 hl
      rw [hlk] at this
      cases this
    simp [hempty]
  | some cpath =>
    apply length_le_one_of_all_name_eq _ cpath
    · have hsub : List.Sublist
          ((((applyEvents fw a tz evs fs0 [] 0 0).1.filter
            (fun f => keepInSweep (applyEvents fw a tz evs fs0 [] 0 0).2.1 f)).filter
              (fun f => liveId f == some i)).map (fun f => f.name))
          ((applyEvents fw a tz evs fs0 [] 0 0).1.map (fun f => f.name)) :=
        ((List.filter_sublist _).trans (List.filter_sublist _)).map _
      exact hsub.nodup hfold.1
    · intro f hf
      have h1 := List.mem_filter.mp hf
      have h2 := List.mem_filter.mp h1.1
      have hl : liveId f = some i := by simpa using h1.2
      have := sweep_keep_of_liveId _ f i h2.2 hl
      rw [hlk] at this
      injection this with h3
      exact h3.symm

/-! Lemmas about the `writtenPaths` association list and the event fold,
used for the partial-failure and rename claims. -/

theorem lookup_map_update_ne (paths : List (String × String)) (k v i : String)
    (h : k ≠ i) :
    lookupAssoc (paths.map (fun q => if q.1 == k then (k, v) else q)) i
      = lookupAssoc paths i := by
  induction paths with
  | nil => rfl
  | cons q t ih =>
    unfold lookupAssoc at ih ⊢
    simp only [List.map_cons, List.find?_cons]
    by_cases hq : q.1 = k
    · have hb : (q.1 == k) = true := by simpa using hq
      have hki : (k == i) = false := by simpa using h
      have hqi : (q.1 == i) = false := by rw [hq]; exact hki
      simp only [hb, eq_self_iff_true, if_true, hki, hqi]
      exact ih
    · have hb : (q.1 == k) = false := by simpa using hq
      simp only [hb]
      simp only [Bool.false_eq_true, if_false]
      by_cases hqi : q.1 = i
      · have : (q.1 == i) = true := by simpa using hqi
        simp only [this]
      · have : (q.1 == i) = false := by simpa using hqi
        simp only [this]
        exact ih

theorem lookup_append_single (paths : List (String × String)) (k v i : String) :
    lookupAssoc (paths ++ [(k, v)]) i
      = if lookupAssoc paths i = none then (if k = i then some v else none)
        else lookupAssoc paths i := by
  induction paths with
  | nil =>
    simp only [List.nil_append]
    unfold lookupAssoc
    simp only [List.find?_cons, List.find?_nil]
    by_cases hk : k = i
    · have : ((k, v).1 == i) = true := by simpa using hk
      simp [this, hk]
    · have : ((k, v).1 == i) = false := by simpa using hk
      simp [this, hk]
  | cons q t ih =>
    simp only [List.cons_append]
    unfold lookupAssoc at ih ⊢
    simp only [List.find?_cons]
    by_cases hqi : q.1 = i
    · have : (q.1 == i) = true := by simpa using hqi
      simp [this]
    · have : (q.1 == i) = false := by simpa using hqi
      simp only [this]
      exact ih

theorem lookupAssoc_updateAssoc_ne (paths : List (String × String)) (k v i : String)
    (h : k ≠ i) :
    lookupAssoc (updateAssoc paths k v) i = lookupAssoc paths i := by
  unfold updateAssoc
  by_cases hany : paths.any (fun q => q.1 == k) = true
  · rw [if_pos hany]
    exact lookup_map_update_ne paths k v i h
  · rw [if_neg hany]
    rw [lookup_append_single paths k v i]
    by_cases hn : lookupAssoc paths i = none
    · simp [hn, h]
    · simp [hn]

theorem lookupAssoc_updateAssoc_self (paths : List (String × String)) (k v : String) :
    lookupAssoc (updateAssoc paths k v) k = some v := by
  unfold updateAssoc
  by_cases hany : paths.any (fun q => q.1 == k) = true
  · rw [if_pos hany]
    obtain ⟨q0, hq0, hq0k⟩ := List.any_eq_true.mp hany
    clear hany
    induction paths with
    | nil => cases hq0
    | cons q t ih =>
      simp only [List.map_cons]
      unfold lookupAssoc
      simp only [List.find?_cons]
      by_cases hq : q.1 = k
      · have hb : (q.1 == k) = true := by simpa using hq
        simp [hb]
      · have hb : (q.1 == k) = false := by simpa using hq
        simp only [hb, Bool.false_eq_true, if_false]
        rcases List.mem_cons.mp hq0 with rfl | hq0t
        · exact absurd (by simpa using hq0k) hq
        · have := ih hq0t
          unfold lookupAssoc at this
          exact this
  · rw [if_neg hany]
    rw [lookup_append_single paths k v k]
    have hnone : lookupAssoc paths k = none := by
      unfold lookupAssoc
      rw [List.find?_eq_none.mpr]
      intro q hq
      have h2 := (List.any_eq_true.not.mp hany)
      push_neg at h2
      simpa using h2 q hq
    simp [hnone]

theorem applyEvents_lookup_frozen (fw : List String) (a tz : String) (es : List Event) :
    ∀ (fs : List FsFile) (paths : List (String × String)) (w r : Nat) (i : String),
      (∀ e ∈ es, e.id ≠ i) →
      lookupAssoc (applyEvents fw a tz es fs paths w r).2.1 i = lookupAssoc paths i := by
  induction es with
  | nil => intro fs paths w r i _; rfl
  | cons e rest ih =>
    intro fs paths w r i hne
    simp only [applyEvents]
    cases hp : (WriteEventFile fw a tz fs e).path? with
    | none =>
      exact ih _ _ _ _ i (fun e2 he2 => hne e2 (List.mem_cons_of_mem e he2))
    | some p =>
      rw [ih _ _ _ _ i (fun e2 he2 => hne e2 (List.mem_cons_of_mem e he2))]
      exact lookupAssoc_updateAssoc_ne paths e.id p i (hne e (List.mem_cons_self e rest))

theorem WriteEventFile_path_none_iff (fw : List String) (a tz : String)
    (fs : List FsFile) (e : Event) :
    (WriteEventFile fw a tz fs e).path? = none ↔ e.id ∈ fw := by
  unfold WriteEventFile
  cases hfind : findFileByID fs e.id with
  | none => by_cases hfw : e.id ∈ fw <;> simp [hfw]
  | some p =>
    by_cases hbase : trimSuffixMd p = eventDesiredBase e <;>
      by_cases hfw : e.id ∈ fw <;> simp [hbase, hfw]

theorem applyEvents_lookup_none_of_fail (fw : List String) (a tz : String)
    (es : List Event) :
    ∀ (fs : List FsFile) (paths : List (String × String)) (w r : Nat) (i : String),
      (∀ e ∈ es, e.id = i → i ∈ fw) →
      lookupAssoc paths i = none →
      lookupAssoc (applyEvents fw a tz es fs paths w r).2.1 i = none := by
  induction es with
  | nil => intro fs paths w r i _ h; exact h
  | cons e rest ih =>
    intro fs paths w r i hfail hnone
    simp only [applyEvents]
    cases hp : (WriteEventFile fw a tz fs e).path? with
    | none =>
      exact ih _ _ _ _ i (fun e2 he2 => hfail e2 (List.mem_cons_of_mem e he2)) hnone
    | some p =>
      apply ih _ _ _ _ i (fun e2 he2 => hfail e2 (List.mem_cons_of_mem e he2))
      by_cases hei : e.id = i
      · exfalso
        have hmemfw := hfail e (List.mem_cons_self e rest) hei
        have hres := (WriteEventFile_path_none_iff fw a tz fs e).mpr (hei ▸ hmemfw)
        rw [hp] at hres
        cases hres
      · rw [lookupAssoc_updateAssoc_ne paths e.id p i hei]
        exact hnone

theorem applyEvents_file_frame (fw : List String) (a tz : String) (es : List Event) :
    ∀ (fs : List FsFile) (paths : List (String × String)) (w r : Nat)
      (i : String) (f : FsFile),
      NamesNodup fs → (∀ e ∈ es, e.id ≠ i) → f ∈ fs → liveId f = some i →
      f ∈ (applyEvents fw a tz es fs paths w r).1 := by
  induction es with
  | nil => intro fs paths w r i f _ _ hf _; exact hf
  | cons e rest ih =>
    intro fs paths w r i f hnd hne hf hl
    obtain ⟨hnd2, hframe, _, _, _⟩ := WriteEventFile_step fw a tz fs e hnd
    have hne2 : liveId f ≠ some e.id := by
      rw [hl]
      intro hc
      injection hc with hc2
      exact hne e (List.mem_cons_self e rest) hc2.symm
    have hf2 := hframe f hf hne2
    simp only [applyEvents]
    cases hp : (WriteEventFile fw a tz fs e).path? with
    | none =>
      exact ih _ _ _ _ i f hnd2 (fun e2 he2 => hne e2 (List.mem_cons_of_mem e he2)) hf2 hl
    | some p =>
      exact ih _ _ _ _ i f hnd2 (fun e2 he2 => hne e2 (List.mem_cons_of_mem e he2)) hf2 hl

theorem applyEvents_warnings (fw : List String) (a tz : String) (es : List Event) :
    ∀ (fs : List FsFile) (paths : List (String × String)) (w r : Nat),
      (applyEvents fw a tz es fs paths w r).2.2.1
        = w + (es.filter (fun e => decide (e.id ∈ fw))).length := by
  induction es with
  | nil => intro fs paths w r; simp [applyEvents]
  | cons e rest ih =>
    intro fs paths w r
    simp only [applyEvents]
    cases hp : (WriteEventFile fw a tz fs e).path? with
    | none =>
      have hmem : e.id ∈ fw := (WriteEventFile_path_none_iff fw a tz fs e).mp hp
      rw [ih]
      have hf : (e :: rest).filter (fun e => decide (e.id ∈ fw))
          = e :: rest.filter (fun e => decide (e.id ∈ fw)) := by
        simp [List.filter_cons, hmem]
      rw [hf, List.length_cons]
      omega
    | some p =>
      have hmem : e.id ∉ fw := by
        intro hc
        have := (WriteEventFile_path_none_iff fw a tz fs e).mpr hc
        rw [hp] at this
        cases this
      rw [ih]
      have hf : (e :: rest).filter (fun e => decide (e.id ∈ fw))
          = rest.filter (fun e => decide (e.id ∈ fw)) := by
        simp [List.filter_cons, hmem]
      rw [hf]

theorem applyEvents_success (fw : List String) (a tz : String) :
    ∀ (es : List Event) (fs : List FsFile) (paths : List (String × String)) (w r : Nat),
      NamesNodup fs → (es.map (fun e => e.id)).Nodup →
      ∀ e ∈ es, e.id ∉ fw →
      ∃ p, lookupAssoc (applyEvents fw a tz es fs paths w r).2.1 e.id = some p
        ∧ (⟨p, FileContent.eventFile a tz e⟩ : FsFile)
            ∈ (applyEvents fw a tz es fs paths w r).1
        ∧ strHasSuffix p ".md" = true := by
  intro es
  induction es with
  | nil => intro fs paths w r _ _ e he; cases he
  | cons e2 rest ih =>
    intro fs paths w r hnd hids e hmem hfw
    obtain ⟨hnd2, _, _, hnoneiff, hsome⟩ := WriteEventFile_step fw a tz fs e2 hnd
    rcases List.mem_cons.mp hmem with rfl | hmem2
    · cases hp : (WriteEventFile fw a tz fs e).path? with
      | none => exact absurd (hnoneiff.mp hp) hfw
      | some p =>
        obtain ⟨hfile, hsuf⟩ := hsome p hp
        have hrestne : ∀ e2 ∈ rest, e2.id ≠ e.id := by
          intro e3 he3 hc
          have hnotin : e.id ∉ rest.map (fun e => e.id) :=
            (List.nodup_cons.mp (by simpa using hids)).1
          apply hnotin
          rw [← hc]
          exact List.mem_map.mpr ⟨e3, he3, rfl⟩
        simp only [applyEvents]
        rw [hp]
        refine ⟨p, ?_, ?_, hsuf⟩
        · rw [applyEvents_lookup_frozen fw a tz rest _ _ _ _ e.id hrestne]
          exact lookupAssoc_updateAssoc_self paths e.id p
        · apply applyEvents_file_frame fw a tz rest _ _ _ _ e.id _ hnd2 hrestne hfile
          unfold liveId
          rw [if_pos hsuf]
          rfl
    · have hids2 : (rest.map (fun e => e.id)).Nodup := (List.nodup_cons.mp hids).2
      simp only [applyEvents]
      cases hp : (WriteEventFile fw a tz fs e2).path? with
      | none => exact ih _ _ _ _ hnd2 hids2 e hmem2 hfw
      | some p => exact ih _ _ _ _ hnd2 hids2 e hmem2 hfw

theorem keep_of_canonical (paths : List (String × String)) (f : FsFile) (i : String)
    (hs : strHasSuffix f.name ".md" = true)
    (he : extractIDFromFile f.content = some i)
    (hl : lookupAssoc paths i = some f.name) :
    keepInSweep paths f = true := by
  unfold keepInSweep
  rw [if_pos hs, he]
  show (match lookupAssoc paths i with
    | none => false
    | some canonical => f.name == canonical) = true
  rw [hl]
  simp

theorem updateSyncState_empty (st : SyncState) (now : String) :
    updateSyncState st "" "" now = ⟨now, st.contactsDeltaLink⟩ := by
  unfold updateSyncState
  simp

/-! The claim theorems. -/

/-- C3: for every pass (full-window or delta), if the remote fetch fails
then the pass aborts returning an error, no local file is created,
modified, renamed, or deleted, and no sync state (cursor or timestamp) is
persisted: the directory and the state are returned exactly as given, with
zero counted actions. -/
theorem c3_fetch_failure_leaves_everything_untouched :
    (∀ (fw : List String) (a tz now : String) (fs0 : List FsFile) (st : SyncState),
      SyncCalendar none fw a tz now fs0 st = ⟨true, fs0, st, 0, 0, 0⟩)
    ∧ (∀ (chain : List (Option DeltaPage)) (fw : List String) (a now : String)
        (fs0 : List FsFile) (st : SyncState),
      GetContactsDelta chain = none →
      SyncContacts chain fw a now fs0 st = ⟨true, fs0, st, 0, 0, 0⟩) := by
  constructor
  · intro fw a tz now fs0 st
    rfl
  · intro chain fw a now fs0 st h
    exact SyncContacts_fail_eq chain fw a now fs0 st h

/-- Witness for C3 at a concrete failing chain. -/
theorem c3_witness :
    SyncContacts [none] [] "acct" "t1" [] ⟨"prev", "dl"⟩
      = ⟨true, [], ⟨"prev", "dl"⟩, 0, 0, 0⟩ :=
  c3_fetch_failure_leaves_everything_untouched.2 [none] [] "acct" "t1" [] ⟨"prev", "dl"⟩ rfl

/-- C10: a calendar (full-window) pass never changes the contacts delta
cursor: it commits state with an empty delta-link argument, so the stored
cursor is kept while the last-sync timestamp is refreshed; and
`updateSyncState` overwrites the cursor field only when given a non-empty
value. -/
theorem c10_calendar_pass_preserves_contacts_cursor :
    (∀ (evs : List Event) (fw : List String) (a tz now : String)
        (fs0 : List FsFile) (st : SyncState),
      (SyncCalendar (some evs) fw a tz now fs0 st).state
        = ⟨now, st.contactsDeltaLink⟩)
    ∧ (∀ (st : SyncState) (ls now : String),
      (updateSyncState st "" ls now).contactsDeltaLink = st.contactsDeltaLink)
    ∧ (∀ (st : SyncState) (dl ls now : String), dl ≠ "" →
      (updateSyncState st dl ls now).contactsDeltaLink = dl) := by
  refine ⟨?_, ?_, ?_⟩
  · intro evs fw a tz now fs0 st
    rw [SyncCalendar_some_eq]
    exact updateSyncState_empty st now
  · intro st ls now
    unfold updateSyncState
    simp
  · intro st dl ls now h
    simp [updateSyncState, h]

/-- Witness for C10 at concrete inputs. -/
theorem c10_witness :
    (SyncCalendar (some []) [] "acct" "tz" "t1" [] ⟨"old", "dl0"⟩).state = ⟨"t1", "dl0"⟩
    ∧ (updateSyncState ⟨"old", "dl0"⟩ "dl1" "" "t2").contactsDeltaLink = "dl1" :=
  ⟨c10_calendar_pass_preserves_contacts_cursor.1 [] [] "acct" "tz" "t1" [] ⟨"old", "dl0"⟩,
   c10_calendar_pass_preserves_contacts_cursor.2.2 ⟨"old", "dl0"⟩ "dl1" "" "t2"
     (by decide)⟩

/-- C5: both sync passes preserve the invariant that within one
account/category directory there is at most one live local file per record
id (given the filesystem guarantee that directory entry names are
distinct): creations, in-place updates, renames, tombstone deletions and
the full-window sweep never leave two live files with the same id. -/
theorem c5_at_most_one_live_file_per_id (evs : List Event)
    (chain : List (Option DeltaPage)) (fw : List String) (a tz now : String)
    (fs0 : List FsFile) (st : SyncState)
    (hnd : NamesNodup fs0) (hinv : AtMostOnePerId fs0) :
    AtMostOnePerId (SyncCalendar (some evs) fw a tz now fs0 st).fs
    ∧ AtMostOnePerId (SyncContacts chain fw a now fs0 st).fs := by
  constructor
  · exact calendar_pass_atMostOne evs fw a tz now fs0 st hnd
  · cases hg : GetContactsDelta chain with
    | none =>
      rw [SyncContacts_fail_eq chain fw a now fs0 st hg]
      exact hinv
    | some res =>
      obtain ⟨cs, dl⟩ := res
      rw [SyncContacts_ok_eq chain fw a now fs0 st cs dl hg]
      exact (applyContacts_facts fw a cs fs0 0 0 0 hnd).2.2 hinv

/-- Witness for C5 at concrete inputs. -/
theorem c5_witness :
    idCount (SyncCalendar (some [collideEvent1]) [] "a" "tz" "t" [] ⟨"", ""⟩).fs "id-1" ≤ 1
    ∧ idCount (SyncContacts [] [] "a" "t" [] ⟨"", ""⟩).fs "id-1" ≤ 1 := by
  have h := c5_at_most_one_live_file_per_id [collideEvent1] [] [] "a" "tz" "t" [] ⟨"", ""⟩
    (by simp [NamesNodup, dirNames]) (by intro i; simp [idCount])
  exact ⟨h.1 "id-1", h.2 "id-1"⟩

/-- C8: a local `.md` file whose header cannot be decoded (or lacks a
string id) never fails a pass and is never deleted by it: it survives both
the full-window calendar pass (including the sweep) and the contacts delta
pass, and it is excluded from identity matching — `findFileByID` never
answers with its path. -/
theorem c8_corrupt_files_excluded_not_deleted (evs : List Event)
    (chain : List (Option DeltaPage)) (fw : List String) (a tz now : String)
    (fs0 : List FsFile) (st : SyncState) (f : FsFile)
    (hnd : NamesNodup fs0) (hf : f ∈ fs0)
    (hcorr : extractIDFromFile f.content = none) :
    (SyncCalendar (some evs) fw a tz now fs0 st).fetchFailed = false
    ∧ f ∈ (SyncCalendar (some evs) fw a tz now fs0 st).fs
    ∧ f ∈ (SyncContacts chain fw a now fs0 st).fs
    ∧ (∀ i, findFileByID fs0 i ≠ some f.name) := by
  have hlive : liveId f = none := by
    unfold liveId
    by_cases hs : strHasSuffix f.name ".md" = true
    · rw [if_pos hs]; exact hcorr
    · rw [if_neg hs]
  refine ⟨?_, ?_, ?_, ?_⟩
  · rw [SyncCalendar_some_eq]
  · rw [SyncCalendar_some_eq]
    apply List.mem_filter.mpr
    exact ⟨(applyEvents_facts fw a tz evs fs0 [] 0 0 hnd).2 f hf hlive,
      sweep_keep_corrupt _ f hcorr⟩
  · cases hg : GetContactsDelta chain with
    | none =>
      rw [SyncContacts_fail_eq chain fw a now fs0 st hg]
      exact hf
    | some res =>
      obtain ⟨cs, dl⟩ := res
      rw [SyncContacts_ok_eq chain fw a now fs0 st cs dl hg]
      exact (applyContacts_facts fw a cs fs0 0 0 0 hnd).2.1 f hf hlive
  · intro i hc
    obtain ⟨g, hgmem, hgname, hgsuf, hgid⟩ := findFileByID_some fs0 i f.name hc
    have hgf : g = f := nodup_names_eq fs0 hnd g f hgmem hf hgname
    rw [hgf, hcorr] at hgid
    cases hgid

/-- Witness for C8 at a concrete stray file. -/
theorem c8_witness :
    strayFile ∈ (SyncCalendar (some [collideEvent1]) [] "a" "tz" "t" [strayFile] ⟨"", ""⟩).fs
    ∧ strayFile ∈ (SyncContacts [] [] "a" "t" [strayFile] ⟨"", ""⟩).fs := by
  have h := c8_corrupt_files_excluded_not_deleted [collideEvent1] [] [] "a" "tz" "t"
    [strayFile] ⟨"", ""⟩ strayFile (by simp [NamesNodup, dirNames]) (by simp) rfl
  exact ⟨h.2.1, h.2.2.1⟩

/-- C9: a delta-pass tombstone whose id has no matching local file is a
silent no-op: `deleteContactByID` removes nothing and reports no error,
and the surrounding pass succeeds with the directory unchanged. -/
theorem c9_tombstone_without_local_file_is_noop (fs : List FsFile) (i : String)
    (c : Contact) (chain : List (Option DeltaPage)) (fw : List String)
    (a now : String) (st : SyncState) (dl : String)
    (habsent : ∀ f ∈ fs, ¬(strHasSuffix f.name ".md" = true ∧
      extractIDFromFile f.content = some i))
    (hrem : c.removed = true) (hid : c.id = i)
    (hchain : GetContactsDelta chain = some ([c], dl)) :
    deleteContactByID fs i = fs
    ∧ (SyncContacts chain fw a now fs st).fs = fs
    ∧ (SyncContacts chain fw a now fs st).fetchFailed = false := by
  have hdel : deleteContactByID fs i = fs := deleteContact_eq_self fs i habsent
  refine ⟨hdel, ?_, ?_⟩
  · rw [SyncContacts_ok_eq chain fw a now fs st [c] dl hchain]
    show (applyContacts fw a [c] fs 0 0 0).1 = fs
    simp only [applyContacts]
    rw [if_pos hrem]
    show (applyContacts fw a [] (deleteContactByID fs c.id) 0 0 (0 + 1)).1 = fs
    rw [hid, hdel]
    rfl
  · rw [SyncContacts_ok_eq chain fw a now fs st [c] dl hchain]

/-- Witness for C9 at a concrete tombstone over an empty directory. -/
theorem c9_witness :
    deleteContactByID [] "ghost-id" = []
    ∧ (SyncContacts [some ⟨[ghostTombstone], "", "dl2"⟩] [] "a" "t" [] ⟨"", ""⟩).fs
        = [] := by
  have h := c9_tombstone_without_local_file_is_noop [] "ghost-id" ghostTombstone
    [some ⟨[ghostTombstone], "", "dl2"⟩] [] "a" "t" ⟨"", ""⟩ "dl2"
    (by intro f hf; cases hf) rfl rfl rfl
  exact ⟨h.1, h.2.1⟩

/-- C6: the delta call drains all result pages before returning — when
every page succeeds, the non-final pages chain through their next links,
and the cursor handed back is the delta link of the final page, with the
full concatenated record list; and if any page fetch fails, the whole call
returns an error with no partial record list and no new cursor. -/
theorem c6_delta_drains_and_fails_atomically :
    (∀ (ps : List DeltaPage) (last : DeltaPage),
      (∀ p ∈ ps, p.deltaLink = "" ∧ p.nextLink ≠ "") →
      last.deltaLink ≠ "" →
      GetContactsDelta ((ps ++ [last]).map some)
        = some ((ps.map (fun p => p.contacts)).flatten ++ last.contacts, last.deltaLink))
    ∧ (∀ (ps : List DeltaPage) (rest : List (Option DeltaPage)),
      (∀ p ∈ ps, p.deltaLink = "" ∧ p.nextLink ≠ "") →
      GetContactsDelta (ps.map some ++ none :: rest) = none) := by
  constructor
  · intro ps
    induction ps with
    | nil =>
      intro last _ hlast
      simp only [List.nil_append, List.map_cons, List.map_nil]
      unfold GetContactsDelta
      rw [if_neg (by simpa using hlast)]
      simp
    | cons p t ih =>
      intro last hall hlast
      have hp := hall p (List.mem_cons_self p t)
      simp only [List.cons_append, List.map_cons]
      unfold GetContactsDelta
      rw [if_pos (by simp [hp.1]), if_neg (by simp [hp.2])]
      rw [ih last (fun q hq => hall q (List.mem_cons_of_mem p hq)) hlast]
      simp [List.append_assoc]
  · intro ps
    induction ps with
    | nil => intro rest _; rfl
    | cons p t ih =>
      intro rest hall
      have hp := hall p (List.mem_cons_self p t)
      simp only [List.cons_append, List.map_cons]
      unfold GetContactsDelta
      rw [if_pos (by simp [hp.1]), if_neg (by simp [hp.2])]
      rw [ih rest (fun q hq => hall q (List.mem_cons_of_mem p hq))]

/-- Witness for C6 at a concrete two-page chain and a failing chain. -/
theorem c6_witness :
    GetContactsDelta (([pageOne] ++ [pageTwo]).map some)
      = some (([pageOne].map (fun p => p.contacts)).flatten ++ pageTwo.contacts,
          pageTwo.deltaLink)
    ∧ GetContactsDelta ([pageOne].map some ++ none :: []) = none :=
  ⟨c6_delta_drains_and_fails_atomically.1 [pageOne] pageTwo (by decide) (by decide),
   c6_delta_drains_and_fails_atomically.2 [pageOne] [] (by decide)⟩

/-- C7: for two distinct records deriving the same base name, filename
resolution gives the first `base.md` and then, once `base.md` occupies the
directory, gives the second `base-2.md` — the lowest unused integer suffix
starting at 2; the resolution is a pure function of the directory listing
and the base name, hence deterministic for identical input order. -/
theorem c7_deterministic_collision_suffixing (names : List String) (base : String)
    (h1 : (base ++ ".md") ∉ names) (h2 : (base ++ "-2.md") ∉ names) :
    GenerateUniqueFilename names base ".md" = base ++ ".md"
    ∧ GenerateUniqueFilename (names ++ [base ++ ".md"]) base ".md" = base ++ "-2.md" := by
  have hc0 : candidateName base ".md" 0 = base ++ ".md" := rfl
  have hc1 : candidateName base ".md" 1 = base ++ "-2.md" := by
    show base ++ "-" ++ Nat.repr 2 ++ ".md" = base ++ "-2.md"
    apply String.ext
    simp only [String.data_append]
    have h2d : (Nat.repr 2).data = ['2'] := by decide
    rw [h2d]
    simp
  constructor
  · unfold GenerateUniqueFilename
    simp only [gufGo]
    rw [hc0, if_neg h1]
  · unfold GenerateUniqueFilename
    have hlen : (names ++ [base ++ ".md"]).length + 1 = names.length + 1 + 1 := by
      simp
    rw [hlen]
    simp only [gufGo, Nat.zero_add]
    rw [hc0, if_pos (List.mem_append_right names (by simp))]
    rw [hc1]
    have hne : (base ++ "-2.md") ≠ (base ++ ".md") := by
      intro hc
      have hlen2 := congrArg (fun s => s.data.length) hc
      simp only [String.data_append, List.length_append] at hlen2
      have e1 : ("-2.md" : String).data.length = 5 := rfl
      have e2 : (".md" : String).data.length = 3 := rfl
      rw [e1, e2] at hlen2
      omega
    rw [if_neg ?_]
    intro hmem
    rcases List.mem_append.mp hmem with hmem1 | hmem2
    · exact h2 hmem1
    · exact hne (by simpa using hmem2)

/-- Witness for C7 at a concrete base over an empty directory. -/
theorem c7_witness :
    GenerateUniqueFilename [] "note" ".md" = "note" ++ ".md"
    ∧ GenerateUniqueFilename ([] ++ ["note" ++ ".md"]) "note" ".md"
        = "note" ++ "-2.md" :=
  c7_deterministic_collision_suffixing [] "note" (by simp) (by simp)

/-- C1: evaluation at the failing input of the idempotence claim. Over an
unchanged remote set of two events that derive the same base filename, the
first pass creates `…-standup.md` and `…-standup-2.md`; the second pass
then renames the suffixed file to `…-standup-3.md` (its current base name
never equals the freshly derived one, and the probe loop sees the file's
own name as occupied), so the second pass performs one rename and the file
set differs — the suffix grows on every subsequent pass. -/
theorem c1_second_pass_renames_on_collision :
    c1FirstPass.renames = 0
    ∧ dirNames c1FirstPass.fs = ["2025-03-10-standup.md", "2025-03-10-standup-2.md"]
    ∧ c1SecondPass.renames = 1
    ∧ c1SecondPass.deleted = 0
    ∧ dirNames c1SecondPass.fs = ["2025-03-10-standup.md", "2025-03-10-standup-3.md"]
    ∧ dirNames c1SecondPass.fs ≠ dirNames c1FirstPass.fs := by
  decide

/-- C4 counterexample: a contact whose display name (natural key) changed
while its id is unchanged is rewritten in place at its old path; the old
path still exists and the newly derived path is never created. -/
theorem c4_contact_update_stays_at_old_path :
    contactSlug renamedContactNew ++ ".md" = "new-name.md"
    ∧ "old-name.md" ∈ dirNames c4Pass.fs
    ∧ "new-name.md" ∉ dirNames c4Pass.fs := by
  decide

/-- C2 counterexample: in a full-window pass where writing B fails while A
and C succeed, B's pre-existing local file is not left in place — the sweep
deletes it because B was never recorded in the written-paths map. -/
theorem c2_b_preexisting_file_swept :
    c2Pass.warnings = 1
    ∧ c2Pass.deleted = 1
    ∧ "2025-01-03-beta.md" ∉ dirNames c2Pass.fs
    ∧ (∀ f ∈ c2Pass.fs, extractIDFromFile f.content ≠ some "id-b") := by
  decide

theorem dirNames_append (l1 l2 : List FsFile) :
    dirNames (l1 ++ l2) = dirNames l1 ++ dirNames l2 :=
  List.map_append _ l1 l2

/-- C4 amended: a record already present locally whose natural key (and
derived filename) changes while its id is unchanged is handled per
category: an event-like record ends up as exactly one file for that id, at
the newly derived collision-resolved path, with the old path gone; a
contact-like record is instead updated in place — its file keeps the old
path (no rename occurs and the name set is unchanged) and only the content
is rewritten. -/
theorem c4_amended_events_rename_contacts_in_place :
    (∀ (a tz : String) (fs : List FsFile) (e : Event) (p : String),
      NamesNodup fs → findFileByID fs e.id = some p →
      trimSuffixMd p ≠ eventDesiredBase e →
      (∀ g ∈ fs, extractIDFromFile g.content = some e.id → g.name = p) →
      (WriteEventFile [] a tz fs e).path?
          = some (GenerateUniqueFilename (dirNames fs) (eventDesiredBase e) ".md")
      ∧ (⟨GenerateUniqueFilename (dirNames fs) (eventDesiredBase e) ".md",
            FileContent.eventFile a tz e⟩ : FsFile) ∈ (WriteEventFile [] a tz fs e).fs
      ∧ p ∉ dirNames (WriteEventFile [] a tz fs e).fs
      ∧ (∀ g ∈ (WriteEventFile [] a tz fs e).fs,
          extractIDFromFile g.content = some e.id →
          g.name = GenerateUniqueFilename (dirNames fs) (eventDesiredBase e) ".md"))
    ∧ (∀ (a : String) (fs : List FsFile) (c : Contact) (p : String),
      findFileByID fs c.id = some p →
      (WriteContactFile [] a fs c).path? = some p
      ∧ (WriteContactFile [] a fs c).fs = writeFile fs p (FileContent.contactFile a c)
      ∧ dirNames (WriteContactFile [] a fs c).fs = dirNames fs) := by
  constructor
  · intro a tz fs e p hnd hfind hbase huniq
    have hfw : e.id ∉ ([] : List String) := by simp
    rw [weFile_found_diff_ok [] a tz fs e p hfind hbase hfw]
    obtain ⟨f0, hf0mem, hf0name, hf0suf, hf0id⟩ := findFileByID_some fs e.id p hfind
    have hfresh : GenerateUniqueFilename (dirNames fs) (eventDesiredBase e) ".md"
        ∉ dirNames fs := guf_not_mem _ _ _
    have hpmem : p ∈ dirNames fs := List.mem_map.mpr ⟨f0, hf0mem, hf0name⟩
    have hpn : p ≠ GenerateUniqueFilename (dirNames fs) (eventDesiredBase e) ".md" :=
      fun hc => hfresh (hc ▸ hpmem)
    have hren := renameFile_found fs p
      (GenerateUniqueFilename (dirNames fs) (eventDesiredBase e) ".md") f0 hnd hf0mem
      hf0name
    have hnrm : GenerateUniqueFilename (dirNames fs) (eventDesiredBase e) ".md"
        ∉ dirNames (removeFile fs p) :=
      fun hc => hfresh ((dirNames_removeFile_sublist fs p).subset hc)
    have hrneq : renameFile fs p
          (GenerateUniqueFilename (dirNames fs) (eventDesiredBase e) ".md")
        = removeFile fs p
          ++ [⟨GenerateUniqueFilename (dirNames fs) (eventDesiredBase e) ".md",
              f0.content⟩] := by
      rw [hren, writeFile_absent_eq _ _ _ hnrm]
    refine ⟨rfl, self_mem_writeFile _ _ _, ?_, ?_⟩
    · have hprm : p ∉ dirNames (removeFile fs p) := by
        intro hc
        obtain ⟨g, hg, hgname⟩ := List.mem_map.mp hc
        exact (mem_removeFile_elim fs p g hg).2 hgname
      have hnotrn : p ∉ dirNames (renameFile fs p
          (GenerateUniqueFilename (dirNames fs) (eventDesiredBase e) ".md")) := by
        rw [hrneq, dirNames_append]
        intro hc
        rcases List.mem_append.mp hc with hc1 | hc2
        · exact hprm hc1
        · exact hpn (by simpa [dirNames] using hc2)
      have hinrn : GenerateUniqueFilename (dirNames fs) (eventDesiredBase e) ".md"
          ∈ dirNames (renameFile fs p
            (GenerateUniqueFilename (dirNames fs) (eventDesiredBase e) ".md")) := by
        rw [hrneq, dirNames_append]
        exact List.mem_append_right _ (by simp [dirNames])
      rw [dirNames_writeFile_present _ _ _ hinrn]
      exact hnotrn
    · intro g hg hgid
      rcases mem_writeFile_elim _ _ _ g hg with h1 | h2
      · rw [hrneq] at h1
        rcases List.mem_append.mp h1 with h3 | h4
        · obtain ⟨hgfs, hgne⟩ := mem_removeFile_elim fs p g h3
          exact absurd (huniq g hgfs hgid) hgne
        · rw [List.mem_singleton.mp h4]
      · rw [h2]
  · intro a fs c p hfind
    have hfw : c.id ∉ ([] : List String) := by simp
    rw [wcFile_found_ok [] a fs c p hfind hfw]
    obtain ⟨f0, hf0mem, hf0name, _, _⟩ := findFileByID_some fs c.id p hfind
    exact ⟨rfl, rfl,
      dirNames_writeFile_present fs p _ (List.mem_map.mpr ⟨f0, hf0mem, hf0name⟩)⟩

/-- Witness for the amended C4 at concrete records. -/
theorem c4_amended_witness :
    (WriteEventFile [] "acct" "UTC" c4EventDir c4EvNew).path?
      = some (GenerateUniqueFilename (dirNames c4EventDir)
          (eventDesiredBase c4EvNew) ".md")
    ∧ "2025-02-01-old-title.md" ∉ dirNames (WriteEventFile [] "acct" "UTC"
        c4EventDir c4EvNew).fs
    ∧ (WriteContactFile [] "acct" contactDir0 renamedContactNew).path?
        = some "old-name.md"
    ∧ dirNames (WriteContactFile [] "acct" contactDir0 renamedContactNew).fs
        = dirNames contactDir0 := by
  have h1 := c4_amended_events_rename_contacts_in_place.1 "acct" "UTC" c4EventDir
    c4EvNew "2025-02-01-old-title.md" (by unfold NamesNodup; decide) (by decide)
    (by decide) (by decide)
  have h2 := c4_amended_events_rename_contacts_in_place.2 "acct" contactDir0
    renamedContactNew "old-name.md" (by decide)
  exact ⟨h1.1, h1.2.2.1, h2.1, h2.2.2⟩

/-- C2 amended: in a full-window pass over records A, B, C with distinct
ids in which writing B fails while A and C succeed, after the pass A's and
C's files are present and correct, the pass reports a nonzero warning
count, and sync state still commits — but B's pre-existing local file is
not left in place: the sweep removes every live file carrying B's id (B is
recreated on the next pass, since the fetch succeeded and B stays in the
remote set). -/
theorem c2_amended_partial_failure_containment (a tz now : String)
    (fs0 : List FsFile) (st : SyncState) (eA eB eC : Event)
    (hnd : NamesNodup fs0)
    (hab : eA.id ≠ eB.id) (hac : eA.id ≠ eC.id) (hbc : eB.id ≠ eC.id) :
    (SyncCalendar (some [eA, eB, eC]) [eB.id] a tz now fs0 st).fetchFailed = false
    ∧ (SyncCalendar (some [eA, eB, eC]) [eB.id] a tz now fs0 st).warnings = 1
    ∧ (SyncCalendar (some [eA, eB, eC]) [eB.id] a tz now fs0 st).state
        = ⟨now, st.contactsDeltaLink⟩
    ∧ (∃ pA, (⟨pA, FileContent.eventFile a tz eA⟩ : FsFile)
        ∈ (SyncCalendar (some [eA, eB, eC]) [eB.id] a tz now fs0 st).fs)
    ∧ (∃ pC, (⟨pC, FileContent.eventFile a tz eC⟩ : FsFile)
        ∈ (SyncCalendar (some [eA, eB, eC]) [eB.id] a tz now fs0 st).fs)
    ∧ (∀ f ∈ (SyncCalendar (some [eA, eB, eC]) [eB.id] a tz now fs0 st).fs,
        strHasSuffix f.name ".md" = true →
        extractIDFromFile f.content ≠ some eB.id) := by
  have hids : (([eA, eB, eC]).map (fun e => e.id)).Nodup := by
    simp [List.nodup_cons, hab, hac, hbc]
  have hAfw : eA.id ∉ [eB.id] := by simp [hab]
  have hCfw : eC.id ∉ [eB.id] := by
    simp only [List.mem_singleton]
    exact hbc.symm
  refine ⟨?_, ?_, ?_, ?_, ?_, ?_⟩
  · rw [SyncCalendar_some_eq]
  · rw [SyncCalendar_some_eq]
    show (applyEvents [eB.id] a tz [eA, eB, eC] fs0 [] 0 0).2.2.1 = 1
    rw [applyEvents_warnings]
    have hwa : (decide (eA.id ∈ [eB.id])) = false := by simp [hab]
    have hwb : (decide (eB.id ∈ [eB.id])) = true := by simp
    have hwc : (decide (eC.id ∈ [eB.id])) = false := by
      simp only [List.mem_singleton, decide_eq_false_iff_not]
      exact hbc.symm
    have hfil : ([eA, eB, eC].filter (fun e => decide (e.id ∈ [eB.id]))) = [eB] := by
      rw [List.filter_cons, List.filter_cons, List.filter_cons]
      rw [hwa, hwb, hwc]
      simp
    rw [hfil]
    rfl
  · rw [SyncCalendar_some_eq]
    exact updateSyncState_empty st now
  · rw [SyncCalendar_some_eq]
    obtain ⟨pA, hlA, hfA, hsA⟩ := applyEvents_success [eB.id] a tz [eA, eB, eC]
      fs0 [] 0 0 hnd hids eA (by simp) hAfw
    refine ⟨pA, List.mem_filter.mpr ⟨hfA, ?_⟩⟩
    exact keep_of_canonical _ _ eA.id hsA rfl hlA
  · rw [SyncCalendar_some_eq]
    obtain ⟨pC, hlC, hfC, hsC⟩ := applyEvents_success [eB.id] a tz [eA, eB, eC]
      fs0 [] 0 0 hnd hids eC (by simp) hCfw
    refine ⟨pC, List.mem_filter.mpr ⟨hfC, ?_⟩⟩
    exact keep_of_canonical _ _ eC.id hsC rfl hlC
  · rw [SyncCalendar_some_eq]
    intro f hf hs hc
    have hmf := List.mem_filter.mp hf
    have hlive : liveId f = some eB.id := by
      unfold liveId
      rw [if_pos hs]
      exact hc
    have hcanon := sweep_keep_of_liveId _ f eB.id hmf.2 hlive
    have hnone : lookupAssoc
        (applyEvents [eB.id] a tz [eA, eB, eC] fs0 [] 0 0).2.1 eB.id = none := by
      apply applyEvents_lookup_none_of_fail
      · intro e _ _
        simp
      · rfl
    rw [hnone] at hcanon
    cases hcanon

/-- Witness for the amended C2 at concrete records. -/
theorem c2_amended_witness :
    (SyncCalendar (some [evA, evB, evC]) [evB.id] "acct" "UTC" "t1" preDirB
      ⟨"old", "dl0"⟩).fetchFailed = false
    ∧ (SyncCalendar (some [evA, evB, evC]) [evB.id] "acct" "UTC" "t1" preDirB
        ⟨"old", "dl0"⟩).warnings = 1
    ∧ (SyncCalendar (some [evA, evB, evC]) [evB.id] "acct" "UTC" "t1" preDirB
        ⟨"old", "dl0"⟩).state = ⟨"t1", "dl0"⟩ := by
  have h := c2_amended_partial_failure_containment "acct" "UTC" "t1" preDirB
    ⟨"old", "dl0"⟩ evA evB evC (by unfold NamesNodup; decide) (by decide) (by decide)
    (by decide)
  exact ⟨h.1, h.2.1, h.2.2.1⟩

end Md365
